import Mathlib

/-!
# Verification of the voice card-matching subsystem of YGOpwa (`oldIteration.py`)

This file is a shallow embedding, in Lean 4, of the matching-and-disambiguation
core of `src/oldIteration.py`:

* the name/rarity scorers (`calculate_name_confidence`, `calculate_rarity_confidence`),
* the first-pass candidate ranking and per-variant expansion inside
  `find_and_present_card_options`,
* the confidence deduplicator (`ensure_unique_confidence_scores`),
* the auto-confirm decision and the pending-selection state machine
  (`process_voice_input`, `handle_voice_selection`, and the dialog callbacks
  `select_option` / `cancel_selection`),
* the commit path (`add_card_to_session`, including the set code placed in the
  price-API payload).

Modelling conventions:

* Python floats are modelled as exact rationals (`ℚ`); `round(x, 1)` is modelled
  as exact round-half-to-even at one decimal, which is Python's rounding rule.
* Python dictionaries holding card data become structures with `Option` fields;
  `d['k']` on a missing key is a raised `KeyError`, modelled by propagating an
  error in `Except`, while `d.get('k', default)` is `Option.getD`.
* The external `fuzzywuzzy` library (`fuzz.token_set_ratio`, `fuzz.ratio`) is not
  part of this repository; it is modelled as an abstract `FuzzLib` record of two
  score functions, and theorems that need them assume only the library's
  documented 0–100 score range (`FuzzBounded`).
* Loops with data-dependent iteration counts (the deduplicator's inner `while`
  loops) are translated with an explicit step bound; the bound `used.length + 1`
  is exact because each iteration of the Python loop tests membership of a fresh
  strictly-monotone value in `used`, so at most `used.length` iterations happen.
-/

/-! ## Python string primitives -/

/-- Python `\s` whitespace over the ASCII range: space, tab, LF, CR, VT, FF. -/
def pyIsSpace (c : Char) : Bool :=
  c == ' ' || c == '\t' || c == '\n' || c == '\r' || c == Char.ofNat 11 || c == Char.ofNat 12

/-- Python `\w` word character over the ASCII range: letter, digit or underscore. -/
def pyWordChar (c : Char) : Bool :=
  c.isAlpha || c.isDigit || c == '_'

/-- Does the character list `p` start the character list `s`? -/
def listStartsWith : List Char → List Char → Bool
  | [], _ => true
  | _ :: _, [] => false
  | a :: p, b :: s => a == b && listStartsWith p s

/-- Does `needle` occur contiguously anywhere in the list?  Python's `in` on
strings; the empty needle occurs in every string, as in Python. -/
def listHasSub (needle : List Char) : List Char → Bool
  | [] => needle.isEmpty
  | c :: s => listStartsWith needle (c :: s) || listHasSub needle s

/-- Python `needle in hay` for strings. -/
def subOf (needle hay : String) : Bool := listHasSub needle.data hay.data

/-- Python `str.lower()` (ASCII). -/
def pyLower (s : String) : String := ⟨s.data.map Char.toLower⟩

/-- Python `str.strip()`: drop leading and trailing whitespace. -/
def pyStrip (s : String) : String :=
  ⟨((s.data.dropWhile pyIsSpace).reverse.dropWhile pyIsSpace).reverse⟩

/-- Worker for `pySplit`: accumulate the current word (reversed) while scanning. -/
def splitWsGo (cur : List Char) : List Char → List (List Char)
  | [] => if cur.isEmpty then [] else [cur.reverse]
  | c :: t =>
    if pyIsSpace c then
      if cur.isEmpty then splitWsGo [] t else cur.reverse :: splitWsGo [] t
    else splitWsGo (c :: cur) t

/-- Python `str.split()` with no argument: split on whitespace runs, no empties. -/
def pySplit (s : String) : List String := (splitWsGo [] s.data).map List.asString

/-- Python `re.sub(r'[^\w\s]', '', s)`: keep only word characters and whitespace. -/
def pyCleanKeep (s : String) : String :=
  ⟨s.data.filter (fun c => pyWordChar c || pyIsSpace c)⟩

/-- Python `s.replace(' ', '')`: remove space characters (only literal spaces). -/
def removeSpaces (s : String) : String := ⟨s.data.filter (fun c => !(c == ' '))⟩

/-- Parse a nonempty run of ASCII digits as a natural number (Python `int`). -/
def digitsToNat (ds : List Char) : ℕ :=
  ds.foldl (fun n c => n * 10 + (c.toNat - 48)) 0

/-! ## Rational-number helpers: Python `round(x, 1)` -/

/-- Round-half-to-even to the nearest integer, Python's `round` rule. -/
def roundHalfEven (x : ℚ) : ℤ :=
  let f := ⌊x⌋
  let r := x - f
  if r < 1/2 then f
  else if 1/2 < r then f + 1
  else if f % 2 = 0 then f else f + 1

/-- Python `round(q, 1)`: round to one decimal place, half to even. -/
def roundTenth (q : ℚ) : ℚ := (roundHalfEven (q * 10) : ℚ) / 10

/-- `q` has at most one decimal place (it lies on the 0.1 grid). -/
def gridTenth (q : ℚ) : Prop := ∃ z : ℤ, (z : ℚ) = q * 10

/-! ## Data model

`CatalogCard`s arrive as loosely-typed dictionaries; missing keys are `none`.
A card's printed variants live under `card_sets`, each with `set_rarity` and
`set_code` keys. -/

structure CardSet where
  set_rarity : Option String
  set_code : Option String
deriving Repr, DecidableEq

structure Card where
  name : Option String
  card_sets : Option (List CardSet)
deriving Repr, DecidableEq

/-- Python `card.get('card_sets', [])`. -/
def csets (c : Card) : List CardSet := c.card_sets.getD []

/-- The external `fuzzywuzzy` collaborator: `fuzz.token_set_ratio` and
`fuzz.ratio`.  Its implementation is not part of this repository. -/
structure FuzzLib where
  tsr : String → String → ℚ
  ratio : String → String → ℚ

/-- The documented range of `fuzzywuzzy` scores: every score is in `[0, 100]`. -/
def FuzzBounded (fz : FuzzLib) : Prop :=
  ∀ a b : String,
    (0 ≤ fz.tsr a b ∧ fz.tsr a b ≤ 100) ∧ (0 ≤ fz.ratio a b ∧ fz.ratio a b ≤ 100)

/-- Python truthiness of an optional string: `None` and `''` are falsy. -/
def truthy : Option String → Bool
  | none => false
  | some s => !(s == "")

/-- A candidate printed variant as a row of the disambiguation option list,
mirroring the dict built in `find_and_present_card_options`. -/
structure Variant where
  card_data : Card
  confidence : ℚ
  name : String
  rarity : String
  set_code : String
  variant_key : String
  is_priority : Bool
deriving Repr, DecidableEq

/-! ## `ensure_unique_confidence_scores` (ConfidenceDeduplicator)

The Python code walks the (sorted) variant list keeping a set `used_scores` of
already-assigned confidences.  For each variant it decrements the confidence by
0.1 while it collides; if it would fall below 10 it restarts from the original
value and climbs by 0.1 instead (giving up above 99); the result is rounded to
one decimal and recorded.  Each `while` iteration tests a fresh
strictly-monotone value for membership in `used_scores`, so the loops run at
most `used_scores.length` times; the step bound below is therefore exact. -/

def ascendGo : ℕ → List ℚ → ℚ → ℚ
  | 0, _, c => c
  | fuel + 1, used, c =>
    if c ∈ used then
      let c2 := c + 1/10
      if 99 < c2 then c2 else ascendGo fuel used c2
    else c

def descendGo : ℕ → List ℚ → ℚ → ℚ → ℚ
  | 0, _, _, c => c
  | fuel + 1, used, orig, c =>
    if c ∈ used then
      let c2 := c - 1/10
      if c2 < 10 then ascendGo (used.length + 1) used (orig + 1/10)
      else descendGo fuel used orig c2
    else c

/-- The collision-resolution loop of `ensure_unique_confidence_scores` for one
variant: `orig` is the variant's stored confidence. -/
def adjustConfidence (used : List ℚ) (orig : ℚ) : ℚ :=
  descendGo (used.length + 1) used orig orig

def ensureUniqueGo (used : List ℚ) : List Variant → List Variant
  | [] => []
  | v :: vs =>
    let c := roundTenth (adjustConfidence used v.confidence)
    { v with confidence := c } :: ensureUniqueGo (c :: used) vs

/-- `ensure_unique_confidence_scores`, as a pure function returning the
adjusted list (the Python code mutates the dicts in place, preserving order). -/
def ensureUniqueConfidenceScores (vs : List Variant) : List Variant :=
  ensureUniqueGo [] vs

/-- A bare variant used to exercise the deduplicator on concrete inputs. -/
def testVariant (c : ℚ) : Variant :=
  ⟨⟨none, none⟩, c, "", "", "", "", false⟩

/-! ## Lemmas about the deduplicator -/

lemma gridTenth_sub_nat {q : ℚ} (h : gridTenth q) (k : ℕ) : gridTenth (q - k / 10) := by
  obtain ⟨z, hz⟩ := h
  exact ⟨z - k, by push_cast; linarith [hz]⟩

lemma roundTenth_grid {q : ℚ} (h : gridTenth q) : roundTenth q = q := by
  obtain ⟨z, hz⟩ := h
  have hfloor : ⌊q * 10⌋ = z := by rw [← hz]; exact Int.floor_intCast z
  have : roundHalfEven (q * 10) = z := by
    unfold roundHalfEven
    rw [hfloor, ← hz]
    norm_num
  rw [roundTenth, this, hz]
  ring

lemma grid_diff_nat {x y : ℚ} (hx : gridTenth x) (hy : gridTenth y) (hle : y ≤ x) :
    ∃ m : ℕ, y = x - m / 10 := by
  obtain ⟨zx, hzx⟩ := hx
  obtain ⟨zy, hzy⟩ := hy
  have hz : zy ≤ zx := by
    have : (zy : ℚ) ≤ zx := by rw [hzx, hzy]; linarith
    exact_mod_cast this
  refine ⟨(zx - zy).toNat, ?_⟩
  have htn : ((zx - zy).toNat : ℤ) = zx - zy := Int.toNat_of_nonneg (by omega)
  have htq : (((zx - zy).toNat : ℕ) : ℚ) = (zx : ℚ) - zy := by
    exact_mod_cast congrArg (fun n : ℤ => (n : ℚ)) htn
  have h10 : y * 10 = x * 10 - ((zx - zy).toNat : ℚ) := by
    rw [htq, ← hzx, ← hzy]; ring
  linarith

lemma forall2_mem_left {R : Variant → Variant → Prop} :
    ∀ {l₁ l₂ : List Variant}, List.Forall₂ R l₁ l₂ → ∀ a ∈ l₁, ∃ b ∈ l₂, R a b := by
  intro l₁ l₂ h
  induction h with
  | nil => intro a ha; simp at ha
  | cons hr _ ih =>
    intro a ha
    rcases List.mem_cons.mp ha with rfl | ha
    · exact ⟨_, List.mem_cons_self _ _, hr⟩
    · obtain ⟨b, hb, hrb⟩ := ih a ha
      exact ⟨b, List.mem_cons_of_mem _ hb, hrb⟩

lemma filterLen_mono (l : List ℚ) {a b : ℚ} (h : a ≤ b) :
    (l.filter fun u => decide (u ≤ a)).length ≤ (l.filter fun u => decide (u ≤ b)).length := by
  induction l with
  | nil => simp
  | cons x t ih =>
    by_cases hxa : x ≤ a
    · have hxb : x ≤ b := le_trans hxa h
      simp [List.filter, hxa, hxb]; omega
    · by_cases hxb : x ≤ b
      · simp [List.filter, hxa, hxb]; omega
      · simp [List.filter, hxa, hxb]; omega

lemma filterLen_strict (l : List ℚ) {a b : ℚ} (hab : a < b) (hb : b ∈ l) :
    (l.filter fun u => decide (u ≤ a)).length < (l.filter fun u => decide (u ≤ b)).length := by
  induction l with
  | nil => simp at hb
  | cons x t ih =>
    rcases List.mem_cons.mp hb with heq | hbt
    · subst heq
      have hxa : ¬ (b ≤ a) := not_le.mpr hab
      have hxb : b ≤ b := le_refl b
      have := filterLen_mono t (le_of_lt hab)
      simp [List.filter, hxa, hxb]; omega
    · by_cases hxa : x ≤ a
      · have hxb : x ≤ b := le_trans hxa (le_of_lt hab)
        have := ih hbt
        simp [List.filter, hxa, hxb]; omega
      · by_cases hxb : x ≤ b
        · have := ih hbt
          simp [List.filter, hxa, hxb]; omega
        · have := ih hbt
          simp [List.filter, hxa, hxb]; omega

/-- Specification of the descending collision loop when no wrap can occur:
with enough fuel and a margin keeping every intermediate value at or above 10,
the loop returns the greatest value of the form `c - k/10` not in `used`. -/
lemma descendGo_spec (used : List ℚ) (orig : ℚ) :
    ∀ (fuel : ℕ) (c : ℚ),
      (used.filter fun u => decide (u ≤ c)).length < fuel →
      10 + ((used.filter fun u => decide (u ≤ c)).length : ℚ) / 10 ≤ c →
      ∃ k : ℕ, descendGo fuel used orig c = c - k / 10
        ∧ descendGo fuel used orig c ∉ used
        ∧ (∀ j : ℕ, j < k → c - j / 10 ∈ used)
        ∧ 10 ≤ descendGo fuel used orig c := by
  intro fuel
  induction fuel with
  | zero => intro c hf _; omega
  | succ fuel ih =>
    intro c hf hm
    by_cases hc : c ∈ used
    · have hcfil : c ∈ used.filter fun u => decide (u ≤ c) :=
        List.mem_filter.mpr ⟨hc, by simp⟩
      have hlen1 : 1 ≤ (used.filter fun u => decide (u ≤ c)).length :=
        List.length_pos.mpr (List.ne_nil_of_mem hcfil)
      have hstrict : ((used.filter fun u => decide (u ≤ c - 1/10)).length)
          < (used.filter fun u => decide (u ≤ c)).length :=
        filterLen_strict used (by linarith) hc
      have hnw : ¬ (c - 1/10 < 10) := by
        push_neg
        have : (1 : ℚ) ≤ ((used.filter fun u => decide (u ≤ c)).length : ℚ) := by
          exact_mod_cast hlen1
        linarith
      have hm2 : 10 + ((used.filter fun u => decide (u ≤ c - 1/10)).length : ℚ) / 10 ≤ c - 1/10 := by
        have hq : ((used.filter fun u => decide (u ≤ c - 1/10)).length : ℚ) + 1
            ≤ ((used.filter fun u => decide (u ≤ c)).length : ℚ) := by
          exact_mod_cast hstrict
        linarith
      obtain ⟨k, hk1, hk2, hk3, hk4⟩ := ih (c - 1/10) (by omega) hm2
      have heq : descendGo (fuel + 1) used orig c = descendGo fuel used orig (c - 1/10) := by
        simp only [descendGo, if_pos hc, if_neg hnw]
      refine ⟨k + 1, ?_, ?_, ?_, ?_⟩
      · rw [heq, hk1]; push_cast; ring
      · rw [heq]; exact hk2
      · intro j hj
        match j with
        | 0 => simpa using hc
        | j + 1 =>
          have : c - (j + 1 : ℕ) / 10 = (c - 1/10) - (j : ℕ) / 10 := by push_cast; ring
          rw [this]
          exact hk3 j (by omega)
      · rw [heq]; exact hk4
    · have heq : descendGo (fuel + 1) used orig c = c := by
        simp only [descendGo, if_neg hc]
      have h0 : (0 : ℚ) ≤ ((used.filter fun u => decide (u ≤ c)).length : ℚ) := by positivity
      exact ⟨0, by rw [heq]; norm_num, by rw [heq]; exact hc,
        fun j hj => absurd hj (by omega), by rw [heq]; linarith⟩

/-- Specification of `adjustConfidence` under the no-wrap margin. -/
lemma adjustConfidence_spec (used : List ℚ) (orig : ℚ)
    (hm : 10 + (used.length : ℚ) / 10 ≤ orig) :
    ∃ k : ℕ, adjustConfidence used orig = orig - k / 10
      ∧ adjustConfidence used orig ∉ used
      ∧ (∀ j : ℕ, j < k → orig - j / 10 ∈ used)
      ∧ 10 ≤ adjustConfidence used orig := by
  have hfl : (used.filter fun u => decide (u ≤ orig)).length ≤ used.length :=
    List.length_filter_le _ _
  have hflq : ((used.filter fun u => decide (u ≤ orig)).length : ℚ) ≤ (used.length : ℚ) := by
    exact_mod_cast hfl
  exact descendGo_spec used orig (used.length + 1) orig (by omega) (by linarith)

/-- Main inductive specification of the deduplicator walk: given grid-aligned
confidences sorted descending with a margin ruling out the wrap branch, the
output keeps every variant in place (only the confidence field changes, and
only downward), avoids every already-used score, and is strictly descending
(hence pairwise distinct). -/
lemma ensureUniqueGo_spec :
    ∀ (vs : List Variant) (used : List ℚ),
      (∀ u ∈ used, gridTenth u) →
      (∀ v ∈ vs, gridTenth v.confidence) →
      (∀ v ∈ vs, 10 + (((used.length + vs.length : ℕ)) : ℚ) / 10 ≤ v.confidence) →
      vs.Pairwise (fun a b => b.confidence ≤ a.confidence) →
      List.Forall₂ (fun o v => o = { v with confidence := o.confidence }
            ∧ o.confidence ≤ v.confidence ∧ gridTenth o.confidence)
          (ensureUniqueGo used vs) vs
        ∧ (∀ o ∈ ensureUniqueGo used vs, o.confidence ∉ used)
        ∧ (ensureUniqueGo used vs).Pairwise (fun a b => b.confidence < a.confidence) := by
  intro vs
  induction vs with
  | nil =>
    intro used _ _ _ _
    refine ⟨List.Forall₂.nil, ?_, ?_⟩ <;> simp [ensureUniqueGo]
  | cons v vs ih =>
    intro used hused hgrid hm hsorted
    have hvmem : v ∈ v :: vs := List.mem_cons_self _ _
    have hmv : 10 + (used.length : ℚ) / 10 ≤ v.confidence := by
      have := hm v hvmem
      have hle : ((used.length : ℕ) : ℚ) ≤ (((used.length + (vs.length + 1) : ℕ)) : ℚ) := by
        exact_mod_cast Nat.le_add_right _ _
      have hlen : ((v :: vs).length : ℕ) = vs.length + 1 := by simp
      rw [hlen] at this
      linarith
    obtain ⟨k, hk, hnotin, hjmem, h10⟩ := adjustConfidence_spec used v.confidence hmv
    have hgc : gridTenth (adjustConfidence used v.confidence) := by
      rw [hk]; exact gridTenth_sub_nat (hgrid v hvmem) k
    have hr : roundTenth (adjustConfidence used v.confidence)
        = adjustConfidence used v.confidence := roundTenth_grid hgc
    set c := adjustConfidence used v.confidence with hcdef
    have hunf : ensureUniqueGo used (v :: vs)
        = { v with confidence := c } :: ensureUniqueGo (c :: used) vs := by
      simp only [ensureUniqueGo, hr]
    have hpc := List.pairwise_cons.mp hsorted
    have hihargs : ∀ w ∈ vs, 10 + ((((c :: used).length + vs.length : ℕ)) : ℚ) / 10 ≤ w.confidence := by
      intro w hw
      have := hm w (List.mem_cons_of_mem _ hw)
      have hn : ((c :: used).length + vs.length : ℕ) = (used.length + (v :: vs).length : ℕ) := by
        simp; omega
      rw [hn]
      exact this
    obtain ⟨ihF, ihNot, ihPw⟩ := ih (c :: used)
      (by intro u hu; rcases List.mem_cons.mp hu with rfl | hu
          · exact hgc
          · exact hused u hu)
      (fun w hw => hgrid w (List.mem_cons_of_mem _ hw))
      hihargs hpc.2
    have hcle : c ≤ v.confidence := by
      rw [hk]
      have : (0:ℚ) ≤ (k:ℚ)/10 := by positivity
      linarith
    refine ⟨?_, ?_, ?_⟩
    · rw [hunf]
      exact List.Forall₂.cons ⟨rfl, hcle, hgc⟩ ihF
    · rw [hunf]
      intro o ho
      rcases List.mem_cons.mp ho with rfl | ho
      · exact hnotin
      · exact fun hmem => ihNot o ho (List.mem_cons_of_mem _ hmem)
    · rw [hunf]
      refine List.pairwise_cons.mpr ⟨?_, ihPw⟩
      intro o ho
      have honot : o.confidence ∉ c :: used := ihNot o ho
      have hone : o.confidence ≠ c := fun h => honot (h ▸ List.mem_cons_self _ _)
      have honu : o.confidence ∉ used := fun h => honot (List.mem_cons_of_mem _ h)
      obtain ⟨w, hw, _, hwle, hog⟩ := forall2_mem_left ihF o ho
      have hwv : w.confidence ≤ v.confidence := hpc.1 w hw
      have hole : o.confidence ≤ v.confidence := le_trans hwle hwv
      obtain ⟨m, hmeq⟩ := grid_diff_nat (hgrid v hvmem) hog hole
      by_contra hnot
      push_neg at hnot
      have hlt : c < o.confidence := lt_of_le_of_ne hnot (Ne.symm hone)
      have hmk : (m:ℚ)/10 < (k:ℚ)/10 := by
        rw [hk] at hlt
        rw [hmeq] at hlt
        linarith
      have hmkn : m < k := by
        have : (m:ℚ) < (k:ℚ) := by linarith
        exact_mod_cast this
      have : v.confidence - m/10 ∈ used := hjmem m hmkn
      rw [← hmeq] at this
      exact honu this

/-- C3 counterexample.  The claim asserts that for EVERY descending-sorted
input the deduplicator output has pairwise-distinct confidences and keeps the
input's relative order.  On the sorted input `[10, 10]` the code's wrap branch
fires (10 − 0.1 < 10), so the second variant is pushed UP to 10.1 and the
output is no longer in descending confidence order: the second option now
outranks the first. -/
theorem C3_dedup_counterexample :
    ([testVariant 10, testVariant 10].Pairwise fun a b => b.confidence ≤ a.confidence)
    ∧ ((ensureUniqueConfidenceScores [testVariant 10, testVariant 10]).map Variant.confidence
        = [10, 101/10])
    ∧ ¬ ((ensureUniqueConfidenceScores [testVariant 10, testVariant 10]).Pairwise
          fun a b => b.confidence ≤ a.confidence) := by
  refine ⟨?_, ?_, ?_⟩
  · norm_num [List.pairwise_cons, testVariant]
  · norm_num [ensureUniqueConfidenceScores, ensureUniqueGo, adjustConfidence, descendGo,
      ascendGo, roundTenth, roundHalfEven, testVariant]
  · norm_num [ensureUniqueConfidenceScores, ensureUniqueGo, adjustConfidence, descendGo,
      ascendGo, roundTenth, roundHalfEven, testVariant, List.pairwise_cons]

/-- C3 (amended): for every variant list sorted by confidence descending whose
confidences lie on the 0.1 grid and stay at least `0.1 × length` above 10 (so
the wrap-upward branch of `ensure_unique_confidence_scores` can never fire and
rounding is the identity), the deduplicator returns the same variants in the
same positions with confidences only adjusted downward, pairwise distinct
(strictly descending, so the relative order of the sorted input is kept). -/
theorem C3_dedup_amended (vs : List Variant)
    (hgrid : ∀ v ∈ vs, gridTenth v.confidence)
    (hmargin : ∀ v ∈ vs, 10 + (vs.length : ℚ) / 10 ≤ v.confidence)
    (hsorted : vs.Pairwise fun a b => b.confidence ≤ a.confidence) :
    List.Forall₂ (fun o v => o = { v with confidence := o.confidence }
          ∧ o.confidence ≤ v.confidence)
        (ensureUniqueConfidenceScores vs) vs
      ∧ (ensureUniqueConfidenceScores vs).Pairwise
          (fun a b => b.confidence < a.confidence) := by
  have h := ensureUniqueGo_spec vs []
    (by intro u hu; simp at hu)
    hgrid
    (by intro v hv
        have := hmargin v hv
        simpa using this)
    hsorted
  exact ⟨(h.1).imp (fun a b hab => ⟨hab.1, hab.2.1⟩), h.2.2⟩

/-- Witness for `C3_dedup_amended` at the concrete sorted list
`[50, 50, 49.9]` (the deduplicator must move the middle 50 down to 49.9 and
the last 49.9 down to 49.8). -/
theorem C3_dedup_witness :
    (([testVariant 50, testVariant 50, testVariant (499/10)].Pairwise
        fun a b => b.confidence ≤ a.confidence)
      ∧ (∀ v ∈ [testVariant 50, testVariant 50, testVariant (499/10)],
          10 + (([testVariant 50, testVariant 50, testVariant (499/10)].length : ℚ)) / 10
            ≤ v.confidence))
    ∧ (ensureUniqueConfidenceScores
          [testVariant 50, testVariant 50, testVariant (499/10)]).Pairwise
        (fun a b => b.confidence < a.confidence) := by
  have hgrid : ∀ v ∈ [testVariant 50, testVariant 50, testVariant (499/10)],
      gridTenth v.confidence := by
    intro v hv
    rcases List.mem_cons.mp hv with rfl | hv
    · exact ⟨500, by norm_num [testVariant]⟩
    rcases List.mem_cons.mp hv with rfl | hv
    · exact ⟨500, by norm_num [testVariant]⟩
    rcases List.mem_cons.mp hv with rfl | hv
    · exact ⟨499, by norm_num [testVariant]⟩
    · simp at hv
  have hmargin : ∀ v ∈ [testVariant 50, testVariant 50, testVariant (499/10)],
      10 + (([testVariant 50, testVariant 50, testVariant (499/10)].length : ℚ)) / 10
        ≤ v.confidence := by
    intro v hv
    rcases List.mem_cons.mp hv with rfl | hv
    · norm_num [testVariant]
    rcases List.mem_cons.mp hv with rfl | hv
    · norm_num [testVariant]
    rcases List.mem_cons.mp hv with rfl | hv
    · norm_num [testVariant]
    · simp at hv
  have hsorted : ([testVariant 50, testVariant 50, testVariant (499/10)].Pairwise
      fun a b => b.confidence ≤ a.confidence) := by
    norm_num [List.pairwise_cons, testVariant]
  exact ⟨⟨hsorted, hmargin⟩,
    (C3_dedup_amended [testVariant 50, testVariant 50, testVariant (499/10)]
      hgrid hmargin hsorted).2⟩

/-! ## RarityScorer: `calculate_rarity_confidence` (card level)

The card-level scorer walks the card's `card_sets`, keeping the best score:
exact (lower/strip) equality scores 100 and stops the walk; containment either
way scores 80; otherwise `fuzz.ratio` is consulted and contributes
`ratio * 0.7` — but only when the ratio is at least 70. -/

def calcRarityGo (fz : FuzzLib) (ir : String) : List CardSet → ℚ → ℚ
  | [], best => best
  | cs :: rest, best =>
    let sr := pyStrip (pyLower (cs.set_rarity.getD ""))
    if sr == ir then 100
    else if subOf ir sr || subOf sr ir then calcRarityGo fz ir rest (max best 80)
    else
      let r := fz.ratio ir sr
      if 70 ≤ r then calcRarityGo fz ir rest (max best (r * (7/10)))
      else calcRarityGo fz ir rest best

def calculateRarityConfidence (fz : FuzzLib) (input_rarity : String) (card : Card) : ℚ :=
  calcRarityGo fz (pyStrip (pyLower input_rarity)) (csets card) 0

/-! ## NameScorer: `calculate_name_confidence` -/

/-- The inner card-word loop for one input word: a substring hit between two
words of length ≥ 3 scores a flat 100 and stops the loop; otherwise the best
`fuzz.ratio` seen so far is kept. -/
def bestWordMatchGo (fz : FuzzLib) (iw : String) : List String → ℚ → ℚ
  | [], best => best
  | cw :: rest, best =>
    if 3 ≤ cw.length && 3 ≤ iw.length && (subOf iw cw || subOf cw iw) then 100
    else bestWordMatchGo fz iw rest (max best (fz.ratio iw cw))

/-- Count the input words (of length ≥ 2) whose best match reaches 80. -/
def matchedWords (fz : FuzzLib) (card_words : List String) : List String → ℕ
  | [] => 0
  | iw :: rest =>
    if 2 ≤ iw.length then
      (if 80 ≤ bestWordMatchGo fz iw card_words 0 then 1 else 0)
        + matchedWords fz card_words rest
    else matchedWords fz card_words rest

/-- `calculate_name_confidence`: the maximum of the token-set fuzzy score over
the supplied spelling variants, the per-word coverage score, and the
compound (space-less) score, then a word-count length-ratio penalty. -/
def calculateNameConfidence (fz : FuzzLib) (input_name card_name : String)
    (search_variants : List String) : ℚ :=
  let best_fuzzy : ℚ :=
    search_variants.foldl (fun b v => max b (fz.tsr (pyLower v) (pyLower card_name))) 0
  let clean_input := pyCleanKeep (pyLower input_name)
  let clean_card := pyCleanKeep (pyLower card_name)
  let input_words := pySplit clean_input
  let card_words := pySplit clean_card
  let word_match_score : ℚ :=
    if input_words.isEmpty then 0
    else ((matchedWords fz card_words input_words : ℚ) / (input_words.length : ℚ)) * 100
  let compound_score : ℚ := fz.ratio (removeSpaces clean_input) (removeSpaces clean_card)
  let raw_score : ℚ := max (max best_fuzzy word_match_score) compound_score
  let input_len := input_words.length
  let card_len := card_words.length
  if 0 < input_len ∧ 0 < card_len then
    let length_ratio : ℚ := ((min input_len card_len : ℕ) : ℚ) / ((max input_len card_len : ℕ) : ℚ)
    let length_penalty : ℚ :=
      if length_ratio < 1/2 then 8/10 else if length_ratio < 7/10 then 9/10 else 1
    raw_score * length_penalty
  else raw_score

/-- `get_card_rarity_display`: the specified rarity when truthy, else the
first listed variant's rarity, else `'Unknown'`. -/
def getCardRarityDisplay (card : Card) (specified : Option String) : String :=
  if truthy specified then specified.getD ""
  else
    match csets card with
    | [] => "Unknown"
    | cs :: _ => cs.set_rarity.getD "Unknown"

/-! ## VariantExpander: the per-variant confidence of
`find_and_present_card_options` (lines 4824–4867) -/

/-- Per-variant rarity score computed inline during variant expansion:
exact → 100, containment → 80, otherwise `fuzz.ratio * 0.7` with NO threshold
(unlike the card-level `calculate_rarity_confidence`); 0 when no rarity was
spoken. -/
def expandRarityScore (fz : FuzzLib) (rarity : Option String) (cs : CardSet) : ℚ :=
  if truthy rarity then
    let sr := pyStrip (pyLower (cs.set_rarity.getD ""))
    let ir := pyStrip (pyLower (rarity.getD ""))
    if sr == ir then 100
    else if subOf ir sr || subOf sr ir then 80
    else fz.ratio ir sr * (7/10)
  else 0

/-- The uncapped 0.75/0.25 blend recomputed per variant, with the weak-name
halving, or the bare name score when no rarity was spoken. -/
def expandBlend (fz : FuzzLib) (card_name cname : String) (sv : List String)
    (rarity : Option String) (cs : CardSet) : ℚ :=
  let name_score := calculateNameConfidence fz card_name cname sv
  if truthy rarity then
    let t := name_score * (3/4) + expandRarityScore fz rarity cs * (1/4)
    if name_score < 40 then t * (1/2) else t
  else name_score

/-- The final per-variant confidence: capped at 95 when the rarity score is an
exact 100, at 85 otherwise. -/
def expandConfidence (fz : FuzzLib) (card_name cname : String) (sv : List String)
    (rarity : Option String) (cs : CardSet) : ℚ :=
  if truthy rarity ∧ expandRarityScore fz rarity cs = 100
  then min 95 (expandBlend fz card_name cname sv rarity cs)
  else min 85 (expandBlend fz card_name cname sv rarity cs)

/-- The `variant_key` string used for duplicate detection. -/
def mkVariantKey (cname : String) (cs : CardSet) : String :=
  cname ++ "_" ++ cs.set_rarity.getD "Unknown" ++ "_" ++ cs.set_code.getD "N/A"

/-- The rarity pair rule as the specification states it (§4.2): exact → 100,
containment → 80, otherwise plain ratio × 0.7 with no further threshold.
Inputs are the already lowercased/stripped spoken token and variant rarity. -/
def specRarityPairScore (fz : FuzzLib) (ir sr : String) : ℚ :=
  if sr == ir then 100
  else if subOf ir sr || subOf sr ir then 80
  else fz.ratio ir sr * (7/10)

/-- The pair contribution actually implemented by the card-level scorer
`calculate_rarity_confidence`: as the spec's rule, except that a fuzzy ratio
below 70 contributes nothing. -/
def codeRarityPairScore (fz : FuzzLib) (ir sr : String) : ℚ :=
  if sr == ir then 100
  else if subOf ir sr || subOf sr ir then 80
  else if 70 ≤ fz.ratio ir sr then fz.ratio ir sr * (7/10) else 0

lemma codeRarityPairScore_nonneg (fz : FuzzLib) (hb : FuzzBounded fz) (ir sr : String) :
    0 ≤ codeRarityPairScore fz ir sr := by
  unfold codeRarityPairScore
  have h := ((hb ir sr).2).1
  split
  · norm_num
  split
  · norm_num
  split
  · positivity
  · norm_num

lemma codeRarityPairScore_le_100 (fz : FuzzLib) (hb : FuzzBounded fz) (ir sr : String) :
    codeRarityPairScore fz ir sr ≤ 100 := by
  unfold codeRarityPairScore
  have h := ((hb ir sr).2).2
  split
  · norm_num
  split
  · norm_num
  split
  · linarith
  · norm_num

/-- The best pair score across a list of card sets. -/
def bestPairScore (fz : FuzzLib) (ir : String) (sets : List CardSet) : ℚ :=
  sets.foldr (fun cs acc =>
    max (codeRarityPairScore fz ir (pyStrip (pyLower (cs.set_rarity.getD "")))) acc) 0

lemma bestPairScore_nonneg (fz : FuzzLib) (hb : FuzzBounded fz) (ir : String)
    (sets : List CardSet) : 0 ≤ bestPairScore fz ir sets := by
  induction sets with
  | nil => simp [bestPairScore]
  | cons cs rest ih =>
    simp only [bestPairScore, List.foldr] at ih ⊢
    exact le_trans ih (le_max_right _ _)

lemma bestPairScore_le_100 (fz : FuzzLib) (hb : FuzzBounded fz) (ir : String)
    (sets : List CardSet) : bestPairScore fz ir sets ≤ 100 := by
  induction sets with
  | nil => simp [bestPairScore]
  | cons cs rest ih =>
    simp only [bestPairScore, List.foldr] at ih ⊢
    exact max_le (codeRarityPairScore_le_100 fz hb ir _) ih

lemma calcRarityGo_eq_max (fz : FuzzLib) (hb : FuzzBounded fz) (ir : String) :
    ∀ (sets : List CardSet) (best : ℚ), 0 ≤ best → best ≤ 100 →
      calcRarityGo fz ir sets best = max best (bestPairScore fz ir sets) := by
  intro sets
  induction sets with
  | nil =>
    intro best h0 _
    simp [calcRarityGo, bestPairScore, max_eq_left h0]
  | cons cs rest ih =>
    intro best h0 h100
    have hrest0 := bestPairScore_nonneg fz hb ir rest
    have hrest100 := bestPairScore_le_100 fz hb ir rest
    by_cases hex : (pyStrip (pyLower (cs.set_rarity.getD "")) == ir) = true
    · have hL : calcRarityGo fz ir (cs :: rest) best = 100 := by
        simp only [calcRarityGo, hex, if_pos]
      have hpair : codeRarityPairScore fz ir (pyStrip (pyLower (cs.set_rarity.getD ""))) = 100 := by
        unfold codeRarityPairScore
        rw [if_pos hex]
      have hR : bestPairScore fz ir (cs :: rest) = max 100 (bestPairScore fz ir rest) := by
        simp only [bestPairScore, List.foldr] at *
        rw [hpair]
      rw [hL, hR, max_eq_left hrest100, max_eq_right h100]
    · by_cases hcon : (subOf ir (pyStrip (pyLower (cs.set_rarity.getD "")))
          || subOf (pyStrip (pyLower (cs.set_rarity.getD ""))) ir) = true
      · have hL : calcRarityGo fz ir (cs :: rest) best
            = calcRarityGo fz ir rest (max best 80) := by
          simp only [calcRarityGo, hex, hcon]
          simp
        have hpair : codeRarityPairScore fz ir (pyStrip (pyLower (cs.set_rarity.getD ""))) = 80 := by
          unfold codeRarityPairScore
          rw [if_neg (by simp_all), if_pos hcon]
        have hR : bestPairScore fz ir (cs :: rest) = max 80 (bestPairScore fz ir rest) := by
          simp only [bestPairScore, List.foldr] at *
          rw [hpair]
        rw [hL, ih (max best 80) (by positivity) (by simp [h100]; norm_num), hR]
        rw [max_assoc]
      · have hb2 := (hb ir (pyStrip (pyLower (cs.set_rarity.getD "")))).2
        by_cases hth : (70 : ℚ) ≤ fz.ratio ir (pyStrip (pyLower (cs.set_rarity.getD "")))
        · have hL : calcRarityGo fz ir (cs :: rest) best
              = calcRarityGo fz ir rest
                  (max best (fz.ratio ir (pyStrip (pyLower (cs.set_rarity.getD ""))) * (7/10))) := by
            simp only [calcRarityGo, hex, hcon]
            simp [hth]
          have hpair : codeRarityPairScore fz ir (pyStrip (pyLower (cs.set_rarity.getD "")))
              = fz.ratio ir (pyStrip (pyLower (cs.set_rarity.getD ""))) * (7/10) := by
            unfold codeRarityPairScore
            rw [if_neg (by simp_all), if_neg (by simp_all), if_pos hth]
          have hR : bestPairScore fz ir (cs :: rest)
              = max (fz.ratio ir (pyStrip (pyLower (cs.set_rarity.getD ""))) * (7/10))
                  (bestPairScore fz ir rest) := by
            simp only [bestPairScore, List.foldr] at *
            rw [hpair]
          have hm0 : 0 ≤ max best (fz.ratio ir (pyStrip (pyLower (cs.set_rarity.getD ""))) * (7/10)) :=
            le_trans h0 (le_max_left _ _)
          have hm100 : max best (fz.ratio ir (pyStrip (pyLower (cs.set_rarity.getD ""))) * (7/10)) ≤ 100 :=
            max_le h100 (by nlinarith [hb2.1, hb2.2])
          rw [hL, ih _ hm0 hm100, hR, max_assoc]
        · have hL : calcRarityGo fz ir (cs :: rest) best = calcRarityGo fz ir rest best := by
            simp only [calcRarityGo, hex, hcon]
            simp [hth]
          have hpair : codeRarityPairScore fz ir (pyStrip (pyLower (cs.set_rarity.getD ""))) = 0 := by
            unfold codeRarityPairScore
            rw [if_neg (by simp_all), if_neg (by simp_all), if_neg hth]
          have hR : bestPairScore fz ir (cs :: rest) = max 0 (bestPairScore fz ir rest) := by
            simp only [bestPairScore, List.foldr] at *
            rw [hpair]
          rw [hL, ih best h0 h100, hR, max_eq_right hrest0]

/-- C5 counterexample.  The claim says the fuzzy branch scores `ratio × 0.7`
for every non-containing pair "with no further threshold".  But the card-level
scorer `calculate_rarity_confidence` only admits the fuzzy contribution when
the ratio is at least 70: with a (bounded) ratio function returning 50, a card
whose single variant rarity shares nothing with the spoken token scores 0, not
`50 × 0.7 = 35`. -/
theorem C5_rarity_counterexample :
    FuzzBounded ⟨fun _ _ => 0, fun _ _ => 50⟩
    ∧ calculateRarityConfidence ⟨fun _ _ => 0, fun _ _ => 50⟩ "zzz"
        ⟨some "c", some [⟨some "aaa", some "X"⟩]⟩ = 0
    ∧ specRarityPairScore ⟨fun _ _ => 0, fun _ _ => 50⟩
        (pyStrip (pyLower "zzz")) (pyStrip (pyLower "aaa")) = 35
    ∧ (0 : ℚ) ≠ 35 := by
  refine ⟨?_, ?_, ?_, by norm_num⟩
  · intro a b
    norm_num
  · norm_num +decide [calculateRarityConfidence, calcRarityGo, csets, pyStrip, pyLower, subOf]
  · norm_num +decide [specRarityPairScore, pyStrip, pyLower, subOf]

/-- C5 (amended): the per-variant rarity comparison done during variant
expansion follows the spec's rule exactly (equality after lowercasing/trimming
→ 100, containment → 80, otherwise ratio × 0.7 with no threshold), but the
card-level scorer `calculate_rarity_confidence` returns the best over the
card's variants of a STRICTER pair rule: its fuzzy branch contributes
`ratio × 0.7` only when the ratio is at least 70, and 0 otherwise. -/
theorem C5_rarity_amended (fz : FuzzLib) (hb : FuzzBounded fz) :
    (∀ (rarity : Option String) (cs : CardSet), truthy rarity = true →
        expandRarityScore fz rarity cs
          = specRarityPairScore fz (pyStrip (pyLower (rarity.getD "")))
              (pyStrip (pyLower (cs.set_rarity.getD ""))))
    ∧ (∀ (input_rarity : String) (card : Card),
        calculateRarityConfidence fz input_rarity card
          = bestPairScore fz (pyStrip (pyLower input_rarity)) (csets card)) := by
  constructor
  · intro rarity cs ht
    simp only [expandRarityScore, specRarityPairScore, ht, if_true]
  · intro input_rarity card
    unfold calculateRarityConfidence
    rw [calcRarityGo_eq_max fz hb _ (csets card) 0 le_rfl (by norm_num)]
    exact max_eq_right (bestPairScore_nonneg fz hb _ _)

/-- Witness for `C5_rarity_amended`: the all-zero score functions are bounded,
and on a concrete card with variants `Ultra Rare` and `Ghost Rare`, spoken
token `ghost rare`, the card-level scorer equals the best pair score (both are
100 via the exact match). -/
theorem C5_rarity_witness :
    FuzzBounded ⟨fun _ _ => 0, fun _ _ => 0⟩
    ∧ calculateRarityConfidence ⟨fun _ _ => 0, fun _ _ => 0⟩ "ghost rare"
        ⟨some "c", some [⟨some "Ultra Rare", some "X"⟩, ⟨some "Ghost Rare", some "X"⟩]⟩
      = bestPairScore ⟨fun _ _ => 0, fun _ _ => 0⟩ (pyStrip (pyLower "ghost rare"))
          (csets ⟨some "c", some [⟨some "Ultra Rare", some "X"⟩, ⟨some "Ghost Rare", some "X"⟩]⟩) := by
  have hb : FuzzBounded ⟨fun _ _ => 0, fun _ _ => 0⟩ := by
    intro a b
    norm_num
  exact ⟨hb, (C5_rarity_amended ⟨fun _ _ => 0, fun _ _ => 0⟩ hb).2 "ghost rare" _⟩

/-- C9: the recomputed per-variant confidence is capped at 95 exactly when the
variant's rarity is an exact (lowercase/trimmed) match to the spoken hint, and
capped at 85 in every other case — including when no rarity was spoken — where
"capped" means the code takes `min cap blend` of the uncapped 0.75/0.25 blend,
so the result never exceeds the cap. -/
theorem C9_variant_caps (fz : FuzzLib) (hb : FuzzBounded fz) (card_name cname : String)
    (sv : List String) (rarity : Option String) (cs : CardSet) :
    (truthy rarity = true →
      pyStrip (pyLower (cs.set_rarity.getD "")) = pyStrip (pyLower (rarity.getD "")) →
        expandConfidence fz card_name cname sv rarity cs
            = min 95 (expandBlend fz card_name cname sv rarity cs)
          ∧ expandConfidence fz card_name cname sv rarity cs ≤ 95)
    ∧ ((truthy rarity = false
          ∨ pyStrip (pyLower (cs.set_rarity.getD "")) ≠ pyStrip (pyLower (rarity.getD ""))) →
        expandConfidence fz card_name cname sv rarity cs
            = min 85 (expandBlend fz card_name cname sv rarity cs)
          ∧ expandConfidence fz card_name cname sv rarity cs ≤ 85) := by
  constructor
  · intro ht hex
    have hrs : expandRarityScore fz rarity cs = 100 := by
      simp only [expandRarityScore, ht, if_true]
      rw [if_pos (by simp [hex])]
    have : expandConfidence fz card_name cname sv rarity cs
        = min 95 (expandBlend fz card_name cname sv rarity cs) := by
      unfold expandConfidence
      rw [if_pos ⟨ht, hrs⟩]
    exact ⟨this, this ▸ min_le_left _ _⟩
  · intro hother
    have hrs : ¬ (truthy rarity = true ∧ expandRarityScore fz rarity cs = 100) := by
      rcases hother with hf | hne
      · rintro ⟨h1, _⟩
        rw [hf] at h1
        exact Bool.false_ne_true h1
      · rintro ⟨h1, h2⟩
        have hb2 := (hb (pyStrip (pyLower (rarity.getD "")))
          (pyStrip (pyLower (cs.set_rarity.getD "")))).2
        simp only [expandRarityScore, h1, if_true] at h2
        rw [if_neg (by simpa using hne)] at h2
        by_cases hcon : (subOf (pyStrip (pyLower (rarity.getD "")))
            (pyStrip (pyLower (cs.set_rarity.getD "")))
            || subOf (pyStrip (pyLower (cs.set_rarity.getD "")))
              (pyStrip (pyLower (rarity.getD "")))) = true
        · rw [if_pos hcon] at h2
          norm_num at h2
        · rw [if_neg hcon] at h2
          nlinarith [hb2.1, hb2.2]
    have : expandConfidence fz card_name cname sv rarity cs
        = min 85 (expandBlend fz card_name cname sv rarity cs) := by
      unfold expandConfidence
      rw [if_neg hrs]
    exact ⟨this, this ▸ min_le_left _ _⟩

/-- Witness for `C9_variant_caps`: with the all-zero (bounded) score functions,
a spoken hint `ghost rare` against a `Ghost Rare` variant is capped at 95, and
against an `Ultra Rare` variant at 85. -/
theorem C9_variant_caps_witness :
    (truthy (some "ghost rare") = true
      ∧ pyStrip (pyLower "Ghost Rare") = pyStrip (pyLower "ghost rare")
      ∧ expandConfidence ⟨fun _ _ => 0, fun _ _ => 0⟩ "x" "y" [] (some "ghost rare")
          ⟨some "Ghost Rare", some "S"⟩ ≤ 95)
    ∧ (pyStrip (pyLower "Ultra Rare") ≠ pyStrip (pyLower "ghost rare")
      ∧ expandConfidence ⟨fun _ _ => 0, fun _ _ => 0⟩ "x" "y" [] (some "ghost rare")
          ⟨some "Ultra Rare", some "S"⟩ ≤ 85) := by
  have hb : FuzzBounded ⟨fun _ _ => 0, fun _ _ => 0⟩ := by
    intro a b
    norm_num
  have h1 : truthy (some "ghost rare") = true := by decide
  have h2 : pyStrip (pyLower "Ghost Rare") = pyStrip (pyLower "ghost rare") := by decide
  have h3 : pyStrip (pyLower "Ultra Rare") ≠ pyStrip (pyLower "ghost rare") := by decide
  refine ⟨⟨h1, h2, ?_⟩, ⟨h3, ?_⟩⟩
  · exact ((C9_variant_caps ⟨fun _ _ => 0, fun _ _ => 0⟩ hb "x" "y" [] (some "ghost rare")
      ⟨some "Ghost Rare", some "S"⟩).1 h1 h2).2
  · exact ((C9_variant_caps ⟨fun _ _ => 0, fun _ _ => 0⟩ hb "x" "y" [] (some "ghost rare")
      ⟨some "Ultra Rare", some "S"⟩).2 (Or.inr h3)).2

/-! ## CandidateRanker: the first pass of `find_and_present_card_options`
(lines 4736–4792): per-card total score, the ≥ 50 gate, and deduplication by
card name keeping the strictly higher-scoring row. -/

/-- A row of the first-pass candidate list (`card_matches`). -/
structure CMatch where
  card_data : Card
  confidence : ℚ
  name : String
  rarity : String
deriving Repr, DecidableEq

/-- First list element with the given name (`next((m for m in card_matches if
m['name'] == card['name']), None)`). -/
def findNamed (n : String) : List CMatch → Option CMatch
  | [] => none
  | m :: ms => if m.name = n then some m else findNamed n ms

/-- Python `list.remove(x)`: drop the first element equal to `x`. -/
def removeFirstEq (x : CMatch) : List CMatch → List CMatch
  | [] => []
  | m :: ms => if m = x then ms else m :: removeFirstEq x ms

/-- The first-pass total score of one catalog card (`None` when the card has
no name and is skipped by the `except` handler): `0.75·name + 0.25·rarity`,
halved when the name score is below 40; bare name score without a hint. -/
def totalScoreFor (fz : FuzzLib) (card_name : String) (sv : List String)
    (rarity : Option String) (card : Card) : Option ℚ :=
  match card.name with
  | none => none
  | some cname =>
    let name_score := calculateNameConfidence fz card_name cname sv
    some (if truthy rarity then
      let rarity_score := calculateRarityConfidence fz (rarity.getD "") card
      let t := name_score * (3/4) + rarity_score * (1/4)
      if name_score < 40 then t * (1/2) else t
    else name_score)

/-- One iteration of the first-pass loop body. -/
def firstPassStep (fz : FuzzLib) (card_name : String) (sv : List String)
    (rarity : Option String) (acc : List CMatch) (card : Card) : List CMatch :=
  match card.name with
  | none => acc
  | some cname =>
    let name_score := calculateNameConfidence fz card_name cname sv
    let rarity_score : ℚ :=
      if truthy rarity then calculateRarityConfidence fz (rarity.getD "") card else 0
    let total_score : ℚ :=
      if truthy rarity then
        let t := name_score * (3/4) + rarity_score * (1/4)
        if name_score < 40 then t * (1/2) else t
      else name_score
    if 50 ≤ total_score then
      match findNamed cname acc with
      | some existing =>
        if existing.confidence < total_score then
          removeFirstEq existing acc
            ++ [⟨card, total_score, cname, getCardRarityDisplay card rarity⟩]
        else acc
      | none => acc ++ [⟨card, total_score, cname, getCardRarityDisplay card rarity⟩]
    else acc

/-- The first pass over the whole catalog. -/
def firstPass (fz : FuzzLib) (card_name : String) (sv : List String)
    (rarity : Option String) (cards : List Card) : List CMatch :=
  cards.foldl (firstPassStep fz card_name sv rarity) []

lemma findNamed_none {n : String} :
    ∀ {acc : List CMatch}, findNamed n acc = none → ∀ m ∈ acc, m.name ≠ n := by
  intro acc
  induction acc with
  | nil => intro _ m hm; simp at hm
  | cons x xs ih =>
    intro h m hm
    by_cases hx : x.name = n
    · simp [findNamed, hx] at h
    · rcases List.mem_cons.mp hm with rfl | hm
      · exact hx
      · exact ih (by simpa [findNamed, hx] using h) m hm

lemma findNamed_some {n : String} :
    ∀ {acc : List CMatch} {e : CMatch}, findNamed n acc = some e → e ∈ acc ∧ e.name = n := by
  intro acc
  induction acc with
  | nil => intro e h; simp [findNamed] at h
  | cons x xs ih =>
    intro e h
    by_cases hx : x.name = n
    · simp only [findNamed, if_pos hx, Option.some.injEq] at h
      exact ⟨h ▸ List.mem_cons_self _ _, h ▸ hx⟩
    · have := ih (by simpa [findNamed, hx] using h)
      exact ⟨List.mem_cons_of_mem _ this.1, this.2⟩

lemma removeFirstEq_sublist (x : CMatch) :
    ∀ l : List CMatch, List.Sublist (removeFirstEq x l) l := by
  intro l
  induction l with
  | nil => simp [removeFirstEq]
  | cons m ms ih =>
    by_cases h : m = x
    · simp [removeFirstEq, h]
    · simpa [removeFirstEq, h] using List.Sublist.cons₂ m ih

lemma removeFirstEq_mem_of_ne {x m : CMatch} (hne : m ≠ x) :
    ∀ {l : List CMatch}, m ∈ l → m ∈ removeFirstEq x l := by
  intro l
  induction l with
  | nil => intro h; simp at h
  | cons y ys ih =>
    intro hm
    by_cases hy : y = x
    · rcases List.mem_cons.mp hm with rfl | hm
      · exact absurd hy hne
      · simpa [removeFirstEq, hy] using hm
    · rcases List.mem_cons.mp hm with rfl | hm
      · simp [removeFirstEq, hy]
      · simp [removeFirstEq, hy]
        exact Or.inr (ih hm)

lemma removeFirstEq_no_name {x : CMatch} :
    ∀ {l : List CMatch}, l.Pairwise (fun a b => a.name ≠ b.name) → x ∈ l →
      ∀ a ∈ removeFirstEq x l, a.name ≠ x.name := by
  intro l
  induction l with
  | nil => intro _ hx; simp at hx
  | cons y ys ih =>
    intro hpw hx a ha
    have hpc := List.pairwise_cons.mp hpw
    by_cases hy : y = x
    · subst hy
      rw [removeFirstEq, if_pos rfl] at ha
      exact fun h => hpc.1 a ha h.symm
    · rw [removeFirstEq, if_neg hy] at ha
      have hxys : x ∈ ys := by
        rcases List.mem_cons.mp hx with h | h
        · exact absurd h.symm hy
        · exact h
      rcases List.mem_cons.mp ha with rfl | ha
      · exact fun h => hpc.1 x hxys h
      · exact ih hpc.2 hxys a ha

lemma pairwise_name_unique {l : List CMatch}
    (hpw : l.Pairwise (fun a b => a.name ≠ b.name)) :
    ∀ a ∈ l, ∀ b ∈ l, a.name = b.name → a = b := by
  induction l with
  | nil => intro a ha; simp at ha
  | cons x xs ih =>
    intro a ha b hb hab
    have hpc := List.pairwise_cons.mp hpw
    rcases List.mem_cons.mp ha with ha1 | ha1
    · rcases List.mem_cons.mp hb with hb1 | hb1
      · rw [ha1, hb1]
      · exfalso
        apply hpc.1 b hb1
        rw [← ha1]
        exact hab
    · rcases List.mem_cons.mp hb with hb1 | hb1
      · exfalso
        apply hpc.1 a ha1
        rw [← hb1]
        exact hab.symm
      · exact ih hpc.2 a ha1 b hb1 hab

lemma firstPassStep_eq (fz : FuzzLib) (cn : String) (sv : List String)
    (rarity : Option String) (acc : List CMatch) (c : Card) (cname : String)
    (hn : c.name = some cname) :
    firstPassStep fz cn sv rarity acc c =
      if 50 ≤ (totalScoreFor fz cn sv rarity c).getD 0 then
        match findNamed cname acc with
        | some existing =>
          if existing.confidence < (totalScoreFor fz cn sv rarity c).getD 0 then
            removeFirstEq existing acc
              ++ [⟨c, (totalScoreFor fz cn sv rarity c).getD 0, cname,
                    getCardRarityDisplay c rarity⟩]
          else acc
        | none => acc ++ [⟨c, (totalScoreFor fz cn sv rarity c).getD 0, cname,
                    getCardRarityDisplay c rarity⟩]
      else acc := by
  by_cases htr : truthy rarity = true <;>
    simp [firstPassStep, totalScoreFor, hn, htr]

lemma firstPassStep_spec (fz : FuzzLib) (cn : String) (sv : List String)
    (rarity : Option String) (acc : List CMatch) (c : Card)
    (H1 : ∀ m ∈ acc, m.card_data.name = some m.name
        ∧ totalScoreFor fz cn sv rarity m.card_data = some m.confidence
        ∧ 50 ≤ m.confidence)
    (H2 : acc.Pairwise (fun a b => a.name ≠ b.name)) :
    (∀ m ∈ firstPassStep fz cn sv rarity acc c, m.card_data.name = some m.name
        ∧ totalScoreFor fz cn sv rarity m.card_data = some m.confidence
        ∧ 50 ≤ m.confidence)
    ∧ (firstPassStep fz cn sv rarity acc c).Pairwise (fun a b => a.name ≠ b.name)
    ∧ (∀ m ∈ acc, ∃ m2 ∈ firstPassStep fz cn sv rarity acc c,
        m2.name = m.name ∧ m.confidence ≤ m2.confidence)
    ∧ (∀ t cname, totalScoreFor fz cn sv rarity c = some t → 50 ≤ t →
        c.name = some cname →
        ∃ m2 ∈ firstPassStep fz cn sv rarity acc c, m2.name = cname ∧ t ≤ m2.confidence) := by
  cases hn : c.name with
  | none =>
    have hstep : firstPassStep fz cn sv rarity acc c = acc := by
      simp [firstPassStep, hn]
    have htot : totalScoreFor fz cn sv rarity c = none := by
      simp [totalScoreFor, hn]
    rw [hstep]
    refine ⟨H1, H2, fun m hm => ⟨m, hm, rfl, le_rfl⟩, ?_⟩
    intro t cname htt _ _
    rw [htot] at htt
    exact absurd htt (by simp)
  | some cname =>
    have htot : totalScoreFor fz cn sv rarity c
        = some ((totalScoreFor fz cn sv rarity c).getD 0) := by
      by_cases htr : truthy rarity = true <;> simp [totalScoreFor, hn, htr]
    set T := (totalScoreFor fz cn sv rarity c).getD 0 with hT
    rw [firstPassStep_eq fz cn sv rarity acc c cname hn]
    by_cases h50 : (50 : ℚ) ≤ T
    · cases hfind : findNamed cname acc with
      | none =>
        have hnone := findNamed_none hfind
        simp only [h50, if_true, hfind]
        have hnew : ∀ m ∈ acc ++ [⟨c, T, cname, getCardRarityDisplay c rarity⟩],
            m.card_data.name = some m.name
            ∧ totalScoreFor fz cn sv rarity m.card_data = some m.confidence
            ∧ 50 ≤ m.confidence := by
          intro m hm
          rcases List.mem_append.mp hm with hm | hm
          · exact H1 m hm
          · rw [List.mem_singleton.mp hm]
            exact ⟨hn, htot.symm ▸ (by rw [← htot]), h50⟩
        refine ⟨hnew, ?_, ?_, ?_⟩
        · rw [List.pairwise_append]
          refine ⟨H2, by simp, ?_⟩
          intro a ha b hb
          rw [List.mem_singleton.mp hb]
          exact hnone a ha
        · intro m hm
          exact ⟨m, List.mem_append_left _ hm, rfl, le_rfl⟩
        · intro t cname2 htt h50t hn2
          injection hn2 with hn2
          rw [htot] at htt
          injection htt with htt
          subst hn2
          exact ⟨⟨c, T, cname, getCardRarityDisplay c rarity⟩,
            List.mem_append_right _ (List.mem_singleton_self _), rfl, by rw [← htt]⟩
      | some existing =>
        obtain ⟨hemem, hename⟩ := findNamed_some hfind
        by_cases hrepl : existing.confidence < T
        · simp only [h50, if_true, hfind, hrepl]
          have hnoname := removeFirstEq_no_name H2 hemem
          refine ⟨?_, ?_, ?_, ?_⟩
          · intro m hm
            rcases List.mem_append.mp hm with hm | hm
            · exact H1 m ((removeFirstEq_sublist existing acc).mem hm)
            · rw [List.mem_singleton.mp hm]
              exact ⟨hn, by rw [← htot], h50⟩
          · rw [List.pairwise_append]
            refine ⟨H2.sublist (removeFirstEq_sublist existing acc), by simp, ?_⟩
            intro a ha b hb
            rw [List.mem_singleton.mp hb]
            intro hcontra
            exact hnoname a ha (hcontra.trans hename.symm)
          · intro m hm
            by_cases hme : m = existing
            · refine ⟨⟨c, T, cname, getCardRarityDisplay c rarity⟩,
                List.mem_append_right _ (List.mem_singleton_self _), ?_, ?_⟩
              · rw [hme, hename]
              · rw [hme]
                exact le_of_lt hrepl
            · exact ⟨m, List.mem_append_left _ (removeFirstEq_mem_of_ne hme hm), rfl, le_rfl⟩
          · intro t cname2 htt h50t hn2
            injection hn2 with hn2
            rw [htot] at htt
            injection htt with htt
            subst hn2
            exact ⟨⟨c, T, cname, getCardRarityDisplay c rarity⟩,
              List.mem_append_right _ (List.mem_singleton_self _), rfl, by rw [← htt]⟩
        · simp only [h50, if_true, hfind, hrepl, if_false]
          refine ⟨H1, H2, fun m hm => ⟨m, hm, rfl, le_rfl⟩, ?_⟩
          intro t cname2 htt h50t hn2
          injection hn2 with hn2
          rw [htot] at htt
          injection htt with htt
          subst hn2
          refine ⟨existing, hemem, hename, ?_⟩
          rw [← htt]
          exact le_of_not_lt hrepl
    · simp only [h50, if_false]
      refine ⟨H1, H2, fun m hm => ⟨m, hm, rfl, le_rfl⟩, ?_⟩
      intro t cname2 htt h50t _
      rw [htot] at htt
      injection htt with htt
      rw [← htt] at h50t
      exact absurd h50t h50

lemma firstPass_aux (fz : FuzzLib) (cn : String) (sv : List String) (rarity : Option String) :
    ∀ (cards : List Card) (acc : List CMatch),
      (∀ m ∈ acc, m.card_data.name = some m.name
          ∧ totalScoreFor fz cn sv rarity m.card_data = some m.confidence
          ∧ 50 ≤ m.confidence) →
      acc.Pairwise (fun a b => a.name ≠ b.name) →
      (∀ m ∈ cards.foldl (firstPassStep fz cn sv rarity) acc,
          m.card_data.name = some m.name
          ∧ totalScoreFor fz cn sv rarity m.card_data = some m.confidence
          ∧ 50 ≤ m.confidence)
      ∧ (cards.foldl (firstPassStep fz cn sv rarity) acc).Pairwise
          (fun a b => a.name ≠ b.name)
      ∧ (∀ m ∈ acc, ∃ m2 ∈ cards.foldl (firstPassStep fz cn sv rarity) acc,
          m2.name = m.name ∧ m.confidence ≤ m2.confidence)
      ∧ (∀ c ∈ cards, ∀ t cname, totalScoreFor fz cn sv rarity c = some t → 50 ≤ t →
          c.name = some cname →
          ∃ m2 ∈ cards.foldl (firstPassStep fz cn sv rarity) acc,
            m2.name = cname ∧ t ≤ m2.confidence) := by
  intro cards
  induction cards with
  | nil =>
    intro acc H1 H2
    refine ⟨H1, H2, fun m hm => ⟨m, hm, rfl, le_rfl⟩, ?_⟩
    intro c hc
    simp at hc
  | cons c cards ih =>
    intro acc H1 H2
    obtain ⟨S1, S2, S3, S4⟩ := firstPassStep_spec fz cn sv rarity acc c H1 H2
    obtain ⟨I1, I2, I3, I4⟩ := ih (firstPassStep fz cn sv rarity acc c) S1 S2
    have hfold : (c :: cards).foldl (firstPassStep fz cn sv rarity) acc
        = cards.foldl (firstPassStep fz cn sv rarity) (firstPassStep fz cn sv rarity acc c) := by
      simp [List.foldl]
    rw [hfold]
    refine ⟨I1, I2, ?_, ?_⟩
    · intro m hm
      obtain ⟨m2, hm2, hname2, hconf2⟩ := S3 m hm
      obtain ⟨m3, hm3, hname3, hconf3⟩ := I3 m2 hm2
      exact ⟨m3, hm3, hname3.trans hname2, le_trans hconf2 hconf3⟩
    · intro c2 hc2 t cname htt h50t hn2
      rcases List.mem_cons.mp hc2 with rfl | hc2
      · obtain ⟨m2, hm2, hname2, hconf2⟩ := S4 t cname htt h50t hn2
        obtain ⟨m3, hm3, hname3, hconf3⟩ := I3 m2 hm2
        exact ⟨m3, hm3, hname3.trans hname2, le_trans hconf2 hconf3⟩
      · exact I4 c2 hc2 t cname htt h50t hn2

/-- C8: with a spoken rarity hint the first-pass total score of a card is
`0.75·nameScore + 0.25·(best rarity score over the card's variants)`, halved
when the name score is below 40, and without a hint it is the bare name score;
only rows scoring at least 50 survive, at most one row per distinct card name
survives, and the surviving row's confidence is the highest total score among
the catalog's cards of that name. -/
theorem C8_first_pass_ranking (fz : FuzzLib) (cn : String) (sv : List String)
    (rarity : Option String) (cards : List Card) :
    (∀ m ∈ firstPass fz cn sv rarity cards,
        m.card_data.name = some m.name
        ∧ totalScoreFor fz cn sv rarity m.card_data = some m.confidence
        ∧ 50 ≤ m.confidence)
    ∧ (firstPass fz cn sv rarity cards).Pairwise (fun a b => a.name ≠ b.name)
    ∧ (∀ m ∈ firstPass fz cn sv rarity cards, ∀ c ∈ cards, c.name = some m.name →
        ∀ t, totalScoreFor fz cn sv rarity c = some t → t ≤ m.confidence)
    ∧ (∀ (card : Card) (cname : String), card.name = some cname → truthy rarity = true →
        totalScoreFor fz cn sv rarity card
          = some (if calculateNameConfidence fz cn cname sv < 40 then
              (calculateNameConfidence fz cn cname sv * (3/4)
                + calculateRarityConfidence fz (rarity.getD "") card * (1/4)) * (1/2)
            else calculateNameConfidence fz cn cname sv * (3/4)
                + calculateRarityConfidence fz (rarity.getD "") card * (1/4)))
    ∧ (∀ (card : Card) (cname : String), card.name = some cname → truthy rarity = false →
        totalScoreFor fz cn sv rarity card
          = some (calculateNameConfidence fz cn cname sv)) := by
  obtain ⟨A, B, _, D⟩ := firstPass_aux fz cn sv rarity cards [] (by simp) (by simp)
  refine ⟨A, B, ?_, ?_, ?_⟩
  · intro m hm c hc hcn t htt
    by_cases h50 : (50 : ℚ) ≤ t
    · obtain ⟨m2, hm2, hname2, hconf2⟩ := D c hc t m.name htt h50 hcn
      have : m2 = m := pairwise_name_unique B m2 hm2 m hm hname2
      rw [← this]
      exact hconf2
    · have := (A m hm).2.2
      push_neg at h50
      linarith
  · intro card cname hn htr
    simp [totalScoreFor, hn, htr]
  · intro card cname hn htr
    simp [totalScoreFor, hn, htr]

/-- Witness for `C8_first_pass_ranking`: without a rarity hint the total score
of a named card is exactly its name score. -/
theorem C8_first_pass_witness :
    (⟨some "c1", none⟩ : Card).name = some "c1"
    ∧ truthy none = false
    ∧ totalScoreFor ⟨fun _ _ => 0, fun _ _ => 0⟩ "bl" [] none ⟨some "c1", none⟩
        = some (calculateNameConfidence ⟨fun _ _ => 0, fun _ _ => 0⟩ "bl" "c1" []) := by
  refine ⟨rfl, rfl, ?_⟩
  exact (C8_first_pass_ranking ⟨fun _ _ => 0, fun _ _ => 0⟩ "bl" [] none
    [⟨some "c1", none⟩]).2.2.2.2 ⟨some "c1", none⟩ "c1" rfl rfl

/-! ## The stable confidence sort of `find_and_present_card_options`

Python's `final_variants.sort(key=lambda v: -v['confidence'])` is a stable
sort.  A stable sort by a key is exactly the sort by the lexicographic order
(key, original position), which is how it is modelled here: tag each element
with its position, sort by `prioRel`, and drop the tags. -/

def prioRel (a b : Variant × ℕ) : Prop :=
  b.1.confidence < a.1.confidence ∨ (a.1.confidence = b.1.confidence ∧ a.2 ≤ b.2)

instance : DecidableRel prioRel := fun a b =>
  inferInstanceAs (Decidable (_ ∨ _))

instance : IsTotal (Variant × ℕ) prioRel where
  total a b := by
    rcases lt_trichotomy a.1.confidence b.1.confidence with h | h | h
    · exact Or.inr (Or.inl h)
    · rcases Nat.le_total a.2 b.2 with h2 | h2
      · exact Or.inl (Or.inr ⟨h, h2⟩)
      · exact Or.inr (Or.inr ⟨h.symm, h2⟩)
    · exact Or.inl (Or.inl h)

instance : IsTrans (Variant × ℕ) prioRel where
  trans a b c hab hbc := by
    rcases hab with h1 | ⟨h1, h1n⟩ <;> rcases hbc with h2 | ⟨h2, h2n⟩
    · exact Or.inl (lt_trans h2 h1)
    · exact Or.inl (h2 ▸ h1)
    · exact Or.inl (by rw [h1]; exact h2)
    · exact Or.inr ⟨h1.trans h2, le_trans h1n h2n⟩

/-- Tag each list element with its position, starting at `i`. -/
def tagFrom : ℕ → List Variant → List (Variant × ℕ)
  | _, [] => []
  | i, v :: vs => (v, i) :: tagFrom (i + 1) vs

/-- Python's stable descending sort by confidence. -/
def pySortByConfDesc (l : List Variant) : List Variant :=
  (List.insertionSort prioRel (tagFrom 0 l)).map Prod.fst

/-- `final_variants = exact_name_matches + all_variants`, then the stable
descending sort: priority-flagged variants are listed first, then the rest,
exactly as the generation loop partitions them by `is_priority`. -/
def combineAndSort (variants : List Variant) : List Variant :=
  pySortByConfDesc (variants.filter (fun v => v.is_priority)
    ++ variants.filter (fun v => !v.is_priority))

lemma tagFrom_append (l₁ l₂ : List Variant) :
    ∀ i, tagFrom i (l₁ ++ l₂) = tagFrom i l₁ ++ tagFrom (i + l₁.length) l₂ := by
  induction l₁ with
  | nil => intro i; simp [tagFrom]
  | cons v vs ih =>
    intro i
    have h1 : tagFrom i ((v :: vs) ++ l₂) = (v, i) :: tagFrom (i + 1) (vs ++ l₂) := rfl
    have h2 : tagFrom (i + 1) (vs ++ l₂)
        = tagFrom (i + 1) vs ++ tagFrom (i + 1 + vs.length) l₂ := ih (i + 1)
    have h3 : i + 1 + vs.length = i + (v :: vs).length := by simp; omega
    rw [h1, h2, h3]
    rfl

lemma mem_tagFrom {p : Variant × ℕ} :
    ∀ {i : ℕ} {l : List Variant}, p ∈ tagFrom i l → p.1 ∈ l ∧ i ≤ p.2 ∧ p.2 < i + l.length := by
  intro i l
  induction l generalizing i with
  | nil => intro h; simp [tagFrom] at h
  | cons v vs ih =>
    intro h
    rcases List.mem_cons.mp h with h | h
    · rw [h]
      exact ⟨List.mem_cons_self _ _, le_rfl, by simp⟩
    · obtain ⟨h1, h2, h3⟩ := ih h
      refine ⟨List.mem_cons_of_mem _ h1, by omega, by simp; omega⟩

lemma ensureUniqueGo_structure :
    ∀ (vs : List Variant) (used : List ℚ),
      (ensureUniqueGo used vs).map (fun v => (v.name, v.rarity, v.set_code, v.is_priority))
        = vs.map (fun v => (v.name, v.rarity, v.set_code, v.is_priority)) := by
  intro vs
  induction vs with
  | nil => intro used; simp [ensureUniqueGo]
  | cons v vs ih =>
    intro used
    simp only [ensureUniqueGo, List.map_cons, ih]

/-- C4: in the stable-sorted combined option list (priority bucket first, then
the rest, sorted by confidence descending), every priority-flagged variant
appears strictly before every non-priority variant of equal or lower
confidence; and the subsequent confidence-deduplication pass does not reorder,
drop or relabel any option, so positions in the presented list coincide.
(Confidences are compared at sort time, before the deduplicator's cosmetic
perturbation.) -/
theorem C4_priority_order (variants : List Variant) :
    (∀ i j (hi : i < (combineAndSort variants).length)
        (hj : j < (combineAndSort variants).length),
        ((combineAndSort variants).get ⟨i, hi⟩).is_priority = true →
        ((combineAndSort variants).get ⟨j, hj⟩).is_priority = false →
        ((combineAndSort variants).get ⟨j, hj⟩).confidence
          ≤ ((combineAndSort variants).get ⟨i, hi⟩).confidence →
        i < j)
    ∧ (ensureUniqueConfidenceScores (combineAndSort variants)).map
          (fun v => (v.name, v.rarity, v.set_code, v.is_priority))
        = (combineAndSort variants).map
          (fun v => (v.name, v.rarity, v.set_code, v.is_priority)) := by
  constructor
  · intro i j hi hj hpi hpj hconf
    set A := variants.filter (fun v => v.is_priority) with hA
    set B := variants.filter (fun v => !v.is_priority) with hB
    set TL := tagFrom 0 (A ++ B) with hTL
    set S := List.insertionSort prioRel TL with hS
    have hsorted : S.Sorted prioRel := List.sorted_insertionSort prioRel TL
    have hperm : S.Perm TL := List.perm_insertionSort prioRel TL
    have hlen : (combineAndSort variants).length = S.length := by
      simp [combineAndSort, pySortByConfDesc, hS, hTL, hA, hB]
    have hget : ∀ (k : ℕ) (hk : k < (combineAndSort variants).length),
        (combineAndSort variants).get ⟨k, hk⟩ = (S.get ⟨k, hlen ▸ hk⟩).1 := by
      intro k hk
      simp only [combineAndSort, pySortByConfDesc]
      rw [List.get_map]
    have hposA : ∀ p ∈ TL, p.1.is_priority = true → p.2 < A.length := by
      intro p hp hflag
      rw [hTL, tagFrom_append, Nat.zero_add] at hp
      rcases List.mem_append.mp hp with hp | hp
      · have := (mem_tagFrom hp).2.2
        omega
      · have hmem := (mem_tagFrom hp).1
        have := List.mem_filter.mp hmem
        simp [hflag] at this
    have hposB : ∀ p ∈ TL, p.1.is_priority = false → A.length ≤ p.2 := by
      intro p hp hflag
      rw [hTL, tagFrom_append, Nat.zero_add] at hp
      rcases List.mem_append.mp hp with hp | hp
      · have hmem := (mem_tagFrom hp).1
        have := List.mem_filter.mp hmem
        simp [hflag] at this
      · exact (mem_tagFrom hp).2.1
    by_contra hnot
    push_neg at hnot
    have hne : i ≠ j := by
      intro h
      subst h
      rw [hpi] at hpj
      exact Bool.noConfusion hpj
    have hji : j < i := lt_of_le_of_ne hnot (Ne.symm hne)
    have hrel : prioRel (S.get ⟨j, hlen ▸ hj⟩) (S.get ⟨i, hlen ▸ hi⟩) :=
      hsorted.rel_get_of_lt (by simpa using hji)
    rw [hget i hi] at hpi hconf
    rw [hget j hj] at hpj hconf
    have hiA : (S.get ⟨i, hlen ▸ hi⟩).2 < A.length :=
      hposA _ (hperm.subset (S.get_mem _ _)) hpi
    have hjB : A.length ≤ (S.get ⟨j, hlen ▸ hj⟩).2 :=
      hposB _ (hperm.subset (S.get_mem _ _)) hpj
    rcases hrel with h | ⟨_, h2⟩
    · exact absurd hconf (not_le.mpr h)
    · omega
  · exact ensureUniqueGo_structure (combineAndSort variants) []

/-- A concrete priority-flagged option used to witness `C4_priority_order`. -/
def c4vp : Variant := ⟨⟨none, none⟩, 80, "P", "R", "S", "K1", true⟩

/-- A concrete non-priority option of equal confidence. -/
def c4vn : Variant := ⟨⟨none, none⟩, 80, "N", "R", "S", "K2", false⟩

/-- Witness for `C4_priority_order`: with one priority and one non-priority
variant tied at confidence 80, the priority variant is listed first. -/
theorem C4_priority_order_witness :
    combineAndSort [c4vp, c4vn] = [c4vp, c4vn] ∧ (0 : ℕ) < 1 := by
  have heval : combineAndSort [c4vp, c4vn] = [c4vp, c4vn] := by
    norm_num [combineAndSort, pySortByConfDesc, tagFrom, prioRel, List.insertionSort,
      List.orderedInsert, c4vp, c4vn, List.filter]
  have h0 : 0 < (combineAndSort [c4vp, c4vn]).length := by rw [heval]; norm_num
  have h1 : 1 < (combineAndSort [c4vp, c4vn]).length := by rw [heval]; norm_num
  have hg0 : (combineAndSort [c4vp, c4vn]).get ⟨0, h0⟩ = c4vp := by
    rw [List.get_of_eq heval]
    rfl
  have hg1 : (combineAndSort [c4vp, c4vn]).get ⟨1, h1⟩ = c4vn := by
    rw [List.get_of_eq heval]
    rfl
  refine ⟨heval, (C4_priority_order [c4vp, c4vn]).1 0 1 h0 h1 ?_ ?_ ?_⟩
  · rw [hg0]; rfl
  · rw [hg1]; rfl
  · rw [hg0, hg1]; norm_num [c4vp, c4vn]

/-! ## Regex-lite machinery for `process_voice_input` and
`handle_voice_selection`

The handful of regular expressions used by the voice layer are simple enough
to translate directly: literal alternatives, `\w+`/`\d+` runs, the lazy
`(.+?)(?:\s|$)` tail, and `collector.*?rare`.  `re.search` is leftmost search;
`re.sub(p, '', s)` removes every non-overlapping match left to right.  `.`
is modelled as "any character" (transcripts are single-line, so the
newline exclusion of `.` is irrelevant).  A matcher returns the extracted
group together with the whole match's length at a given position. -/

/-- Index of the first occurrence of `pat` in the list, if any. -/
def findSubIdx (pat : List Char) : List Char → Option ℕ
  | [] => if pat.isEmpty then some 0 else none
  | c :: t =>
    if listStartsWith pat (c :: t) then some 0
    else (findSubIdx pat t).map (· + 1)

/-- Match a bare literal at this position; the extracted value is the literal
itself (`match.group(0)`). -/
def litAt (lit : List Char) (s : List Char) : Option (List Char × ℕ) :=
  if listStartsWith lit s then some (lit, lit.length) else none

/-- Match `LIT(\w+)` at this position. -/
def litWordAt (lit : List Char) (s : List Char) : Option (List Char × ℕ) :=
  if listStartsWith lit s then
    let rest := s.drop lit.length
    let w := rest.takeWhile pyWordChar
    if w.isEmpty then none else some (w, lit.length + w.length)
  else none

/-- The lazy group of `(.+?)(?:\s|$)`: the shortest nonempty prefix whose next
character is whitespace (consumed by the non-capturing group) or the end. -/
def lazyDotGroup : List Char → Option (List Char × Bool)
  | [] => none
  | [c] => some ([c], false)
  | c :: d :: t =>
    if pyIsSpace d then some ([c], true)
    else (lazyDotGroup (d :: t)).map (fun r => (c :: r.1, r.2))

/-- Match `LIT(.+?)(?:\s|$)` at this position. -/
def litLazyAt (lit : List Char) (s : List Char) : Option (List Char × ℕ) :=
  if listStartsWith lit s then
    match lazyDotGroup (s.drop lit.length) with
    | some (g, b) => some (g, lit.length + g.length + (if b then 1 else 0))
    | none => none
  else none

/-- Match `collector.*?rare` at this position (lazy middle, so the earliest
following `rare` ends the match); the value is the whole matched text. -/
def collectorRareAt (s : List Char) : Option (List Char × ℕ) :=
  if listStartsWith ("collector".data) s then
    match findSubIdx ("rare".data) (s.drop 9) with
    | some idx => some (s.take (9 + idx + 4), 9 + idx + 4)
    | none => none
  else none

/-- Match `(.+?)LIT(?:\s|$)` anchored at this position: the group is the
shortest nonempty prefix followed by `LIT` and a whitespace-or-end boundary. -/
def trailingLitGo (lit : List Char) (accRev : List Char) : List Char → Option (List Char × ℕ)
  | [] => none
  | c :: t =>
    let acc2 := c :: accRev
    if listStartsWith lit t then
      match t.drop lit.length with
      | [] => some (acc2.reverse, acc2.length + lit.length)
      | d :: _ =>
        if pyIsSpace d then some (acc2.reverse, acc2.length + lit.length + 1)
        else trailingLitGo lit acc2 t
    else trailingLitGo lit acc2 t

def trailingLitAt (lit : List Char) (s : List Char) : Option (List Char × ℕ) :=
  trailingLitGo lit [] s

/-- `re.search`: try the matcher at every position, leftmost first (including
the empty position at the end of the string). -/
def searchPos (m : List Char → Option (List Char × ℕ)) : List Char → Option (List Char × ℕ)
  | [] => m []
  | c :: t =>
    match m (c :: t) with
    | some r => some r
    | none => searchPos m t

/-- `re.sub(pattern, '', s)`: remove every non-overlapping match scanning left
to right.  All matchers used here match at least one character, so the step
budget `s.length` is exact. -/
def subAllGo (m : List Char → Option (List Char × ℕ)) : ℕ → List Char → List Char
  | 0, s => s
  | fuel + 1, s =>
    match s with
    | [] => []
    | c :: t =>
      match m (c :: t) with
      | some (_, L) => subAllGo m fuel ((c :: t).drop L)
      | none => c :: subAllGo m fuel t

def subAll (m : List Char → Option (List Char × ℕ)) (s : List Char) : List Char :=
  subAllGo m s.length s

/-- `str.strip()` on character lists. -/
def stripChars (s : List Char) : List Char :=
  ((s.dropWhile pyIsSpace).reverse.dropWhile pyIsSpace).reverse

/-- Collapse every whitespace run to a single space (`re.sub(r'\s+', ' ', s)`);
each step consumes at least one character, so the budget is exact. -/
def collapseWsGo : ℕ → List Char → List Char
  | 0, s => s
  | fuel + 1, s =>
    match s with
    | [] => []
    | c :: t =>
      if pyIsSpace c then ' ' :: collapseWsGo fuel (t.dropWhile pyIsSpace)
      else c :: collapseWsGo fuel t

def collapseWs (s : List Char) : List Char := collapseWsGo s.length s

/-- Try each matcher of the ordered pattern list with `re.search`, returning
the first pattern that matches anywhere, together with its extracted group. -/
def firstMatchWith :
    List (List Char → Option (List Char × ℕ)) → List Char →
      Option ((List Char × ℕ) × (List Char → Option (List Char × ℕ)))
  | [], _ => none
  | m :: rest, text =>
    match searchPos m text with
    | some g => some (g, m)
    | none => firstMatchWith rest text

/-- The six art-variant patterns of `process_voice_input`, in order. -/
def artMatchers : List (List Char → Option (List Char × ℕ)) :=
  [ litWordAt ("art variant ".data)
  , litWordAt ("art ".data)
  , litWordAt ("variant ".data)
  , litWordAt ("artwork ".data)
  , litLazyAt ("art rarity ".data)
  , litLazyAt ("art variant ".data) ]

/-- The sixteen rarity patterns of `process_voice_input`, in order: twelve
direct patterns (whose value is the whole match) followed by four group-based
patterns (whose value is the captured group). -/
def rarityMatchers : List (List Char → Option (List Char × ℕ)) :=
  [ litAt ("quarter century secret rare".data)
  , litAt ("quarter century secret".data)
  , litAt ("prismatic secret rare".data)
  , litAt ("prismatic secret".data)
  , litAt ("starlight rare".data)
  , collectorRareAt
  , litAt ("ghost rare".data)
  , litAt ("secret rare".data)
  , litAt ("ultra rare".data)
  , litAt ("super rare".data)
  , litAt ("rare".data)
  , litAt ("common".data)
  , litLazyAt ("rarity ".data)
  , litLazyAt ("rare ".data)
  , trailingLitAt (" rare".data)
  , trailingLitAt (" rarity".data) ]

/-! ## Ordinal and cancel parsing of `handle_voice_selection` -/

/-- `r'^\s*(\d+)\s*$'`: the whole string is a digit run with optional
whitespace around it. -/
def parseBareNumber (s : List Char) : Option ℕ :=
  let a := s.dropWhile pyIsSpace
  let ds := a.takeWhile Char.isDigit
  if ds.isEmpty then none
  else if (a.drop ds.length).all pyIsSpace then some (digitsToNat ds) else none

/-- `KW\s+(\d+)` at one position. -/
def kwNumAt (kw : List Char) (s : List Char) : Option ℕ :=
  if listStartsWith kw s then
    let rest := s.drop kw.length
    let ws := rest.takeWhile pyIsSpace
    if ws.isEmpty then none
    else
      let ds := (rest.drop ws.length).takeWhile Char.isDigit
      if ds.isEmpty then none else some (digitsToNat ds)
  else none

/-- `re.search(KW + r'\s+(\d+)', s)`: leftmost keyword-number match. -/
def searchKwNum (kw : List Char) : List Char → Option ℕ
  | [] => none
  | c :: t =>
    match kwNumAt kw (c :: t) with
    | some n => some n
    | none => searchKwNum kw t

/-- The five ordinal patterns of `handle_voice_selection`, tried in order;
the first matching pattern supplies the number. -/
def parseOrdinal (s : String) : Option ℕ :=
  match parseBareNumber s.data with
  | some n => some n
  | none =>
    match searchKwNum ("option".data) s.data with
    | some n => some n
    | none =>
      match searchKwNum ("select".data) s.data with
      | some n => some n
      | none =>
        match searchKwNum ("choose".data) s.data with
        | some n => some n
        | none => searchKwNum ("number".data) s.data

/-- The cancel vocabulary check: unanchored substring search for any of
`reject`, `cancel`, `no`, `none`, `skip`. -/
def cancelMatch (s : String) : Bool :=
  subOf "reject" s || subOf "cancel" s || subOf "no" s || subOf "none" s || subOf "skip" s

/-! ## `get_card_name_variants`: phonetic spelling variants -/

/-- Replace every occurrence of the (nonempty) pattern; each step consumes at
least one character, so the budget `s.length` is exact. -/
def replaceAllGo (pat rep : List Char) : ℕ → List Char → List Char
  | 0, s => s
  | fuel + 1, s =>
    match s with
    | [] => []
    | c :: t =>
      if listStartsWith pat (c :: t) then rep ++ replaceAllGo pat rep fuel ((c :: t).drop pat.length)
      else c :: replaceAllGo pat rep fuel t

/-- Python `s.replace(pat, rep)` (for nonempty `pat`). -/
def pyReplace (s pat rep : String) : String :=
  ⟨replaceAllGo pat.data rep.data s.data.length s.data⟩

/-- The substitution table of `get_card_name_variants`, in source order
(Python dicts preserve insertion order). -/
def substitutionsList : List (String × List String) :=
  [ ("yu", ["you", "u"]), ("gi", ["gee", "ji"]), ("oh", ["o"])
  , ("elemental", ["elemental", "element"]), ("hero", ["hiro", "heero", "hero"])
  , ("evil", ["evil", "evel"]), ("dark", ["dark", "drak"])
  , ("gaia", ["gaia", "gaya", "guy", "gya"]), ("cyber", ["siber", "cyber"])
  , ("dragon", ["drago", "drag"]), ("magician", ["magic", "mage"])
  , ("warrior", ["war", "warrior"]), ("machine", ["mach", "machin"])
  , ("beast", ["best", "beast"]), ("fiend", ["fend", "fiend"])
  , ("spellcaster", ["spell", "caster"]), ("aqua", ["agua", "aqua"])
  , ("winged", ["wing", "winged"]), ("thunder", ["under", "thunder"])
  , ("zombie", ["zomb", "zombie"]), ("plant", ["plan", "plant"])
  , ("insect", ["insec", "insect"]), ("rock", ["rok", "rock"])
  , ("pyro", ["fire", "pyro"]), ("sea", ["see", "sea"])
  , ("divine", ["divin", "divine"])
  , ("metal flame", ["metalflame", "metal flame"])
  , ("flame", ["flame", "flam"]), ("metal", ["metal", "mettle"]) ]

/-- Python `''.join(words)`. -/
def joinStrings (l : List String) : String := l.foldl (· ++ ·) ""

/-- Order-preserving deduplication keyed on the lowercased variant. -/
def dedupeGo (seen : List String) : List String → List String
  | [] => []
  | v :: vs =>
    if pyLower v ∈ seen then dedupeGo seen vs
    else v :: dedupeGo (pyLower v :: seen) vs

/-- `get_card_name_variants`: the name itself, phonetic substitutions, and
compound-spacing variants, deduplicated case-insensitively in order. -/
def getCardNameVariants (name : String) : List String :=
  let lower_name := pyLower name
  let subs := substitutionsList.foldl
    (fun acc p =>
      if subOf p.1 lower_name then acc ++ p.2.map (fun alt => pyReplace lower_name p.1 alt)
      else acc) []
  let words := pySplit lower_name
  let compounds :=
    if 2 ≤ words.length then
      joinStrings words ::
        (List.range (words.length - 1)).map (fun k =>
          joinStrings (words.take (k + 1)) ++ " " ++ String.intercalate " " (words.drop (k + 1)))
    else []
  dedupeGo [] ([name] ++ subs ++ compounds)

/-! ## `add_card_to_session` and the committed `MatchOutcome`

The session card is built from the full `card_data`, the rarity chosen at
resolution time, and the art hint; the price-API payload's `card_number` is
taken from `card_data.get('card_sets', [{}])[0].get('set_code', '')` — the
FIRST listed variant of the card, not the chosen option.  A present but empty
`card_sets` list raises `IndexError` there. -/

structure MatchOutcome where
  card_data : Card
  card_name : String
  card_rarity : String
  art_variant : String
  price_card_number : String
deriving Repr, DecidableEq

def addCardToSession (card_data : Card) (art_variant : Option String)
    (rarity : Option String) : Except String MatchOutcome :=
  let final_rarity :=
    if truthy rarity then rarity.getD "" else getCardRarityDisplay card_data rarity
  match card_data.card_sets with
  | some [] => .error "IndexError: card_sets is empty"
  | none =>
    .ok ⟨card_data, card_data.name.getD "Unknown Card", final_rarity,
      (if truthy art_variant then art_variant.getD "" else "None"), ""⟩
  | some (cs0 :: _) =>
    .ok ⟨card_data, card_data.name.getD "Unknown Card", final_rarity,
      (if truthy art_variant then art_variant.getD "" else "None"), cs0.set_code.getD ""⟩

/-! ## The variant-expansion phase and the full
`find_and_present_card_options` pipeline -/

/-- Add every printed variant of one (name-matching) card to the priority or
non-priority bucket; the duplicate check consults only the non-priority bucket
(`all_variants`), as in the source. -/
def addVariantsForCard (fz : FuzzLib) (card_name : String) (sv : List String)
    (rarity : Option String) (target : String) (ip : Bool) (card : Card)
    (st : List Variant × List Variant) : List Variant × List Variant :=
  (csets card).foldl
    (fun st cs =>
      let vkey := mkVariantKey target cs
      if st.2.any (fun v => v.variant_key == vkey) then st
      else
        let conf := expandConfidence fz card_name target sv rarity cs
        let variant : Variant :=
          ⟨card, conf, target, cs.set_rarity.getD "Unknown", cs.set_code.getD "N/A", vkey, ip⟩
        if ip then (st.1 ++ [variant], st.2) else (st.1, st.2 ++ [variant]))
    st

/-- Walk `set_cards` looking for cards named `target`; `card['name']` raises
`KeyError` on a malformed card, aborting the whole pass (there is no
try/except around this loop in the source). -/
def expandCards (fz : FuzzLib) (card_name : String) (sv : List String)
    (rarity : Option String) (target : String) (ip : Bool) :
    List Card → (List Variant × List Variant) → Except String (List Variant × List Variant)
  | [], st => .ok st
  | c :: cs, st =>
    match c.name with
    | none => .error "KeyError: name"
    | some cname =>
      expandCards fz card_name sv rarity target ip cs
        (if cname == target then addVariantsForCard fz card_name sv rarity target ip c st else st)

/-- The outer expansion loop over the first-pass matches, computing each
match's priority flag from the spoken phrase. -/
def expandPhase (fz : FuzzLib) (card_name : String) (sv : List String)
    (rarity : Option String) (set_cards : List Card) :
    List CMatch → (List Variant × List Variant) → Except String (List Variant × List Variant)
  | [], st => .ok st
  | m :: ms, st =>
    let ip := decide (90 ≤ fz.tsr (pyLower card_name) (pyLower m.name))
      || subOf (pyLower m.name) (pyLower card_name)
      || subOf (pyLower card_name) (pyLower m.name)
    match expandCards fz card_name sv rarity m.name ip set_cards st with
    | .error e => .error e
    | .ok st2 => expandPhase fz card_name sv rarity set_cards ms st2

/-- The observable outcome of one `find_and_present_card_options` call. -/
inductive SearchOutcome where
  | noCatalog
  | noMatches (card_name : String)
  | noVariants (card_name : String)
  | autoConfirmed (best : Variant) (outcome : Except String MatchOutcome)
  | presented (options : List Variant)
deriving Repr

/-- `find_and_present_card_options`: first pass, variant expansion, stable
sort, confidence deduplication, top-8 truncation, and the auto-confirm
decision. -/
def findAndPresent (fz : FuzzLib) (set_cards : List Card) (card_name : String)
    (art_variant : Option String) (rarity : Option String)
    (auto_confirm_enabled : Bool) (auto_threshold : ℤ) : Except String SearchOutcome :=
  if set_cards.isEmpty then .ok .noCatalog
  else
    let sv := getCardNameVariants card_name
    let card_matches := firstPass fz card_name sv rarity set_cards
    if card_matches.isEmpty then .ok (.noMatches card_name)
    else
      match expandPhase fz card_name sv rarity set_cards card_matches ([], []) with
      | .error e => .error e
      | .ok (exact, others) =>
        if (exact ++ others).isEmpty then .ok (.noVariants card_name)
        else
          let sorted := pySortByConfDesc (exact ++ others)
          let deduped := ensureUniqueConfidenceScores sorted
          let final8 := deduped.take 8
          match final8 with
          | [] => .ok (.noVariants card_name)
          | best :: _ =>
            if auto_confirm_enabled && ((auto_threshold : ℚ) ≤ best.confidence) then
              .ok (.autoConfirmed best (addCardToSession best.card_data art_variant best.rarity))
            else
              .ok (.presented final8)

/-! ## The DisambiguationStateMachine
(`process_voice_input`, `handle_voice_selection`, dialog callbacks) -/

/-- `self.pending_voice_data` (empty dict when cleared: every `.get` is None). -/
structure PendingData where
  original_input : Option String
  art_variant : Option String
  rarity : Option String
deriving Repr, DecidableEq

def emptyPendingData : PendingData := ⟨none, none, none⟩

/-- The mutable pending-selection state:
`pending_voice_confirmation`, `pending_card_options`, `pending_voice_data`. -/
structure VoiceState where
  pending_voice_confirmation : Bool
  pending_card_options : List Variant
  pending_voice_data : PendingData
deriving Repr, DecidableEq

def clearedState : VoiceState := ⟨false, [], emptyPendingData⟩

/-- What one routed utterance did. -/
inductive VoiceAction where
  | committed (outcome : Except String MatchOutcome)
  | invalidSelection (numOptions : ℕ)
  | cancelled
  | unrecognized (numOptions : ℕ)
  | startedQuery (card_name : String) (art_variant : Option String)
      (rarity : Option String) (result : Except String SearchOutcome)

/-- `handle_voice_selection`: ordinal patterns first (the first matching
pattern decides, in or out of range); only when none matches is the cancel
vocabulary consulted; otherwise re-prompt, touching nothing. -/
def handleVoiceSelection (st : VoiceState) (voice_text : String) : VoiceState × VoiceAction :=
  match parseOrdinal voice_text with
  | some n =>
    if 1 ≤ n ∧ n ≤ st.pending_card_options.length then
      match st.pending_card_options.get? (n - 1) with
      | some sel =>
        (clearedState,
          .committed (addCardToSession sel.card_data st.pending_voice_data.art_variant sel.rarity))
      | none => (st, .invalidSelection st.pending_card_options.length)
    else (st, .invalidSelection st.pending_card_options.length)
  | none =>
    if cancelMatch voice_text then (clearedState, .cancelled)
    else (st, .unrecognized st.pending_card_options.length)

/-- `process_voice_input`: lowercase and strip the utterance; while a pending
selection exists, route to `handle_voice_selection`; otherwise extract the art
and rarity hints (when the corresponding toggles are enabled), normalize the
remaining card name, and run `find_and_present_card_options`.  Search for the
rarity patterns runs against the stripped utterance (as in the source), while
their removal applies to the art-stripped name. -/
def processVoiceInput (fz : FuzzLib) (set_cards : List Card)
    (auto_art_rarity_enabled auto_rarity_enabled auto_confirm_enabled : Bool)
    (auto_threshold : ℤ) (st : VoiceState) (voice_text_raw : String) :
    VoiceState × VoiceAction :=
  let voice_text := pyStrip (pyLower voice_text_raw)
  if st.pending_voice_confirmation then handleVoiceSelection st voice_text
  else
    let t0 := voice_text.data
    let art_step :=
      if auto_art_rarity_enabled then
        match firstMatchWith artMatchers t0 with
        | some (g, m) => (some (List.asString g.1), stripChars (subAll m t0))
        | none => (none, t0)
      else (none, t0)
    let art_variant := art_step.1
    let rarity_step :=
      if auto_rarity_enabled then
        match firstMatchWith rarityMatchers t0 with
        | some (g, m) => (some (List.asString (stripChars g.1)), stripChars (subAll m art_step.2))
        | none => (none, art_step.2)
      else (none, art_step.2)
    let rarity := rarity_step.1
    let card_name : String := ⟨stripChars (collapseWs rarity_step.2)⟩
    let res := findAndPresent fz set_cards card_name art_variant rarity
      auto_confirm_enabled auto_threshold
    match res with
    | .ok (.presented opts) =>
      (⟨true, opts, ⟨some card_name, art_variant, rarity⟩⟩,
        .startedQuery card_name art_variant rarity res)
    | _ => (st, .startedQuery card_name art_variant rarity res)

/-- The dialog's `select_option(index)` callback (out-of-band UI click):
commits the clicked option with its own rarity and the dialog's art hint. -/
def uiSelectOption (st : VoiceState) (art_variant : Option String) (k : ℕ) :
    VoiceState × Option (Except String MatchOutcome) :=
  match st.pending_card_options.get? k with
  | some sel => (clearedState, some (addCardToSession sel.card_data art_variant sel.rarity))
  | none => (st, none)

/-- The dialog's `cancel_selection` callback: clears everything, commits
nothing. -/
def uiCancelSelection (_st : VoiceState) : VoiceState × Option (Except String MatchOutcome) :=
  (clearedState, none)

/-! ## Concrete evaluation lemmas for the Blue-Eyes White Dragon scenarios
(spec §8 test vectors; claims C6 and C7) -/

lemma foldl_max_le {g : String → ℚ} {B : ℚ} :
    ∀ (l : List String) (acc : ℚ), acc ≤ B → (∀ x ∈ l, g x ≤ B) →
      l.foldl (fun b v => max b (g v)) acc ≤ B := by
  intro l
  induction l with
  | nil => intro acc h _; simpa using h
  | cons x xs ih =>
    intro acc h hall
    simp only [List.foldl]
    exact ih _ (max_le h (hall x (List.mem_cons_self _ _)))
      (fun y hy => hall y (List.mem_cons_of_mem _ hy))

lemma nameScore_bewd (fz : FuzzLib) (hb : FuzzBounded fz) :
    calculateNameConfidence fz "blue eyes white dragon" "Blue-Eyes White Dragon"
      (getCardNameVariants "blue eyes white dragon") = 100 := by
  have hsplit1 : pySplit (pyCleanKeep (pyLower "blue eyes white dragon"))
      = ["blue", "eyes", "white", "dragon"] := by decide
  have hsplit2 : pySplit (pyCleanKeep (pyLower "Blue-Eyes White Dragon"))
      = ["blueeyes", "white", "dragon"] := by decide
  have hwm : matchedWords fz ["blueeyes", "white", "dragon"] ["blue", "eyes", "white", "dragon"]
      = 4 := by
    simp +decide [matchedWords, bestWordMatchGo]
  have hbf : (getCardNameVariants "blue eyes white dragon").foldl
      (fun b v => max b (fz.tsr (pyLower v) (pyLower "Blue-Eyes White Dragon"))) 0 ≤ 100 :=
    foldl_max_le _ 0 (by norm_num) (fun x _ => ((hb _ _).1).2)
  have hcp : fz.ratio (removeSpaces (pyCleanKeep (pyLower "blue eyes white dragon")))
      (removeSpaces (pyCleanKeep (pyLower "Blue-Eyes White Dragon"))) ≤ 100 :=
    ((hb _ _).2).2
  simp only [calculateNameConfidence, hsplit1, hsplit2, hwm]
  norm_num
  rw [max_eq_right hbf, max_eq_left hcp]

def bewdCard : Card :=
  ⟨some "Blue-Eyes White Dragon",
    some [⟨some "Ultra Rare", some "LOB-001"⟩, ⟨some "Ghost Rare", some "LOB-001"⟩]⟩

lemma cardRarity_bewd (fz : FuzzLib) :
    calculateRarityConfidence fz "ghost rare" bewdCard = 100 := by
  simp only [calculateRarityConfidence, bewdCard, csets, calcRarityGo]
  norm_num +decide

lemma firstPass_bewd (fz : FuzzLib) (hb : FuzzBounded fz) :
    firstPass fz "blue eyes white dragon" (getCardNameVariants "blue eyes white dragon")
        (some "ghost rare") [bewdCard]
      = [⟨bewdCard, 100, "Blue-Eyes White Dragon", "ghost rare"⟩] := by
  have hns := nameScore_bewd fz hb
  have hrc := cardRarity_bewd fz
  have hname : bewdCard.name = some "Blue-Eyes White Dragon" := rfl
  simp only [firstPass, List.foldl, firstPassStep, hname]
  norm_num +decide [hns, hrc, findNamed, getCardRarityDisplay]

def uVarBewd (u : ℚ) (p : Bool) : Variant :=
  ⟨bewdCard, u, "Blue-Eyes White Dragon", "Ultra Rare", "LOB-001",
    "Blue-Eyes White Dragon_Ultra Rare_LOB-001", p⟩

def gVarBewd (p : Bool) : Variant :=
  ⟨bewdCard, 95, "Blue-Eyes White Dragon", "Ghost Rare", "LOB-001",
    "Blue-Eyes White Dragon_Ghost Rare_LOB-001", p⟩

lemma expandConfidence_bewd_ultra (fz : FuzzLib) (hb : FuzzBounded fz) :
    75 ≤ expandConfidence fz "blue eyes white dragon" "Blue-Eyes White Dragon"
        (getCardNameVariants "blue eyes white dragon") (some "ghost rare")
        ⟨some "Ultra Rare", some "LOB-001"⟩
    ∧ expandConfidence fz "blue eyes white dragon" "Blue-Eyes White Dragon"
        (getCardNameVariants "blue eyes white dragon") (some "ghost rare")
        ⟨some "Ultra Rare", some "LOB-001"⟩ ≤ 85 := by
  have hrs : expandRarityScore fz (some "ghost rare") ⟨some "Ultra Rare", some "LOB-001"⟩
      = fz.ratio (pyStrip (pyLower "ghost rare")) (pyStrip (pyLower "Ultra Rare")) * (7/10) := by
    simp +decide [expandRarityScore, truthy]
  have hr := (hb (pyStrip (pyLower "ghost rare")) (pyStrip (pyLower "Ultra Rare"))).2
  have hrs0 : 0 ≤ expandRarityScore fz (some "ghost rare") ⟨some "Ultra Rare", some "LOB-001"⟩ := by
    rw [hrs]; nlinarith [hr.1, hr.2]
  have hrs70 : expandRarityScore fz (some "ghost rare") ⟨some "Ultra Rare", some "LOB-001"⟩ ≤ 70 := by
    rw [hrs]; nlinarith [hr.1, hr.2]
  have hns := nameScore_bewd fz hb
  have hblend : expandBlend fz "blue eyes white dragon" "Blue-Eyes White Dragon"
      (getCardNameVariants "blue eyes white dragon") (some "ghost rare")
      ⟨some "Ultra Rare", some "LOB-001"⟩
      = 75 + expandRarityScore fz (some "ghost rare") ⟨some "Ultra Rare", some "LOB-001"⟩ * (1/4) := by
    simp only [expandBlend, hns]
    norm_num +decide [truthy]
  have hcond : ¬ (truthy (some "ghost rare") = true
      ∧ expandRarityScore fz (some "ghost rare") ⟨some "Ultra Rare", some "LOB-001"⟩ = 100) := by
    rintro ⟨_, h⟩
    rw [h] at hrs70
    norm_num at hrs70
  constructor
  · rw [expandConfidence, if_neg hcond, hblend]
    have : (75:ℚ) ≤ 75 + expandRarityScore fz (some "ghost rare") ⟨some "Ultra Rare", some "LOB-001"⟩ * (1/4) := by linarith
    exact le_min (by norm_num) this
  · rw [expandConfidence, if_neg hcond]
    exact min_le_left _ _

lemma expandConfidence_bewd_ghost (fz : FuzzLib) (hb : FuzzBounded fz) :
    expandConfidence fz "blue eyes white dragon" "Blue-Eyes White Dragon"
        (getCardNameVariants "blue eyes white dragon") (some "ghost rare")
        ⟨some "Ghost Rare", some "LOB-001"⟩ = 95 := by
  have hrs : expandRarityScore fz (some "ghost rare") ⟨some "Ghost Rare", some "LOB-001"⟩ = 100 := by
    simp +decide [expandRarityScore, truthy]
  have hns := nameScore_bewd fz hb
  have hblend : expandBlend fz "blue eyes white dragon" "Blue-Eyes White Dragon"
      (getCardNameVariants "blue eyes white dragon") (some "ghost rare")
      ⟨some "Ghost Rare", some "LOB-001"⟩ = 100 := by
    simp only [expandBlend, hns, hrs]
    norm_num +decide [truthy]
  rw [expandConfidence, if_pos ⟨by decide, hrs⟩, hblend]
  norm_num

lemma expandPhase_bewd (fz : FuzzLib) (hb : FuzzBounded fz) :
    ∃ (p : Bool) (u : ℚ), 75 ≤ u ∧ u ≤ 85 ∧
      ∃ ex ot, expandPhase fz "blue eyes white dragon"
          (getCardNameVariants "blue eyes white dragon") (some "ghost rare") [bewdCard]
          [⟨bewdCard, 100, "Blue-Eyes White Dragon", "ghost rare"⟩] ([], [])
        = .ok (ex, ot) ∧ ex ++ ot = [uVarBewd u p, gVarBewd p] := by
  set p := (decide (90 ≤ fz.tsr (pyLower "blue eyes white dragon")
      (pyLower "Blue-Eyes White Dragon"))
    || subOf (pyLower "Blue-Eyes White Dragon") (pyLower "blue eyes white dragon")
    || subOf (pyLower "blue eyes white dragon") (pyLower "Blue-Eyes White Dragon")) with hp
  set u := expandConfidence fz "blue eyes white dragon" "Blue-Eyes White Dragon"
      (getCardNameVariants "blue eyes white dragon") (some "ghost rare")
      ⟨some "Ultra Rare", some "LOB-001"⟩ with hu
  obtain ⟨hu1, hu2⟩ := expandConfidence_bewd_ultra fz hb
  have hg := expandConfidence_bewd_ghost fz hb
  refine ⟨p, u, hu1, hu2, ?_⟩
  have hadd : addVariantsForCard fz "blue eyes white dragon"
      (getCardNameVariants "blue eyes white dragon") (some "ghost rare")
      "Blue-Eyes White Dragon" p bewdCard ([], [])
      = if p then ([uVarBewd u p, gVarBewd p], []) else ([], [uVarBewd u p, gVarBewd p]) := by
    cases hpv : p <;>
      simp +decide [addVariantsForCard, bewdCard, csets, mkVariantKey, List.foldl,
        uVarBewd, gVarBewd, ← hu, hg, hpv]
  have hcards : expandCards fz "blue eyes white dragon"
      (getCardNameVariants "blue eyes white dragon") (some "ghost rare")
      "Blue-Eyes White Dragon" p [bewdCard] ([], [])
      = .ok (if p then ([uVarBewd u p, gVarBewd p], []) else ([], [uVarBewd u p, gVarBewd p])) := by
    have hname : bewdCard.name = some "Blue-Eyes White Dragon" := rfl
    simp only [expandCards, hname]
    rw [if_pos (by decide)]
    rw [hadd]
  have hphase : expandPhase fz "blue eyes white dragon"
      (getCardNameVariants "blue eyes white dragon") (some "ghost rare") [bewdCard]
      [⟨bewdCard, 100, "Blue-Eyes White Dragon", "ghost rare"⟩] ([], [])
      = .ok (if p then ([uVarBewd u p, gVarBewd p], []) else ([], [uVarBewd u p, gVarBewd p])) := by
    simp only [expandPhase, ← hp]
    rw [hcards]
  cases hpv : p
  · rw [hpv] at hphase
    exact ⟨[], [uVarBewd u false, gVarBewd false], by simpa using hphase, by simp⟩
  · rw [hpv] at hphase
    exact ⟨[uVarBewd u true, gVarBewd true], [], by simpa using hphase, by simp⟩

lemma sort_bewd (u : ℚ) (p : Bool) (hu : u ≤ 85) :
    pySortByConfDesc [uVarBewd u p, gVarBewd p] = [gVarBewd p, uVarBewd u p] := by
  have hnr : ¬ prioRel (uVarBewd u p, 0) (gVarBewd p, 1) := by
    simp only [prioRel, uVarBewd, gVarBewd]
    push_neg
    refine ⟨by norm_num; linarith, ?_⟩
    intro h
    norm_num at h
    linarith
  simp only [pySortByConfDesc, tagFrom, List.insertionSort, List.orderedInsert, if_neg hnr]
  rfl

lemma dedup_bewd (u : ℚ) (p : Bool) (hu : u ≤ 85) :
    ∃ u2 : ℚ, ensureUniqueConfidenceScores [gVarBewd p, uVarBewd u p]
      = [gVarBewd p, { uVarBewd u p with confidence := u2 }] := by
  have hne : u ∉ ([95] : List ℚ) := by
    simp
    intro h
    rw [h] at hu
    norm_num at hu
  have hg95 : roundTenth (adjustConfidence [] 95) = 95 := by
    have h1 : adjustConfidence [] 95 = 95 := by
      simp [adjustConfidence, descendGo]
    rw [h1]
    exact roundTenth_grid ⟨950, by norm_num⟩
  refine ⟨roundTenth (adjustConfidence [95] u), ?_⟩
  simp only [ensureUniqueConfidenceScores, ensureUniqueGo]
  have hcg : (gVarBewd p).confidence = 95 := rfl
  have hcu : (uVarBewd u p).confidence = u := rfl
  rw [hcg, hcu, hg95]
  rfl

lemma findAndPresent_bewd (fz : FuzzLib) (hb : FuzzBounded fz) :
    ∃ p : Bool,
      findAndPresent fz [bewdCard] "blue eyes white dragon" none (some "ghost rare") true 85
        = .ok (.autoConfirmed (gVarBewd p)
            (addCardToSession bewdCard none (some "Ghost Rare"))) := by
  obtain ⟨p, u, hu1, hu2, ex, ot, hphase, hconcat⟩ := expandPhase_bewd fz hb
  obtain ⟨u2, hdedup⟩ := dedup_bewd u p hu2
  have hsort := sort_bewd u p hu2
  have hfp := firstPass_bewd fz hb
  refine ⟨p, ?_⟩
  simp only [findAndPresent, hfp]
  rw [hphase]
  simp only [hconcat]
  norm_num
  rw [hsort, hdedup]
  simp [List.take]
  norm_num [gVarBewd]

lemma addCard_bewd_ghost :
    addCardToSession bewdCard none (some "Ghost Rare")
      = .ok ⟨bewdCard, "Blue-Eyes White Dragon", "Ghost Rare", "None", "LOB-001"⟩ := rfl

/-- C7: with the catalog holding Blue-Eyes White Dragon in Ultra Rare and
Ghost Rare (both LOB-001), the utterance `blue eyes white dragon ghost rare`
with auto-confirm enabled at threshold 85 extracts the rarity hint, scores the
Ghost Rare variant at the 95 cap, auto-confirms it (no PendingSelection: the
state stays Idle), and commits the Ghost Rare rarity to the session.  The
priority flag `p` of the committed variant depends on the external
token-set-ratio value and is existentially quantified. -/
theorem C7_ghost_rare_auto_confirm (fz : FuzzLib) (hb : FuzzBounded fz) :
    ∃ p : Bool,
      findAndPresent fz [bewdCard] "blue eyes white dragon" none (some "ghost rare") true 85
        = .ok (.autoConfirmed (gVarBewd p)
            (.ok ⟨bewdCard, "Blue-Eyes White Dragon", "Ghost Rare", "None", "LOB-001"⟩))
      ∧ (gVarBewd p).rarity = "Ghost Rare"
      ∧ (gVarBewd p).confidence = 95
      ∧ processVoiceInput fz [bewdCard] true true true 85 ⟨false, [], emptyPendingData⟩
          "blue eyes white dragon ghost rare"
        = (⟨false, [], emptyPendingData⟩,
            .startedQuery "blue eyes white dragon" none (some "ghost rare")
              (.ok (.autoConfirmed (gVarBewd p)
                (.ok ⟨bewdCard, "Blue-Eyes White Dragon", "Ghost Rare", "None", "LOB-001"⟩)))) := by
  obtain ⟨p, hfind⟩ := findAndPresent_bewd fz hb
  rw [addCard_bewd_ghost] at hfind
  refine ⟨p, hfind, rfl, rfl, ?_⟩
  have hart : firstMatchWith artMatchers
      (pyStrip (pyLower "blue eyes white dragon ghost rare")).data = none := rfl
  have hrar : firstMatchWith rarityMatchers
      (pyStrip (pyLower "blue eyes white dragon ghost rare")).data
      = some ((("ghost rare".data), 10), litAt ("ghost rare".data)) := rfl
  simp only [processVoiceInput, hart, hrar]
  norm_num
  have hname : (⟨stripChars (collapseWs (stripChars (subAll (litAt ("ghost rare".data))
      (pyStrip (pyLower "blue eyes white dragon ghost rare")).data)))⟩ : String)
      = "blue eyes white dragon" := rfl
  have hrv : List.asString (stripChars ("ghost rare".data)) = "ghost rare" := rfl
  simp only [hname, hrv, hfind]

/-- Witness for `C7_ghost_rare_auto_confirm` at the all-zero (bounded) score
functions. -/
theorem C7_ghost_rare_witness :
    FuzzBounded ⟨fun _ _ => 0, fun _ _ => 0⟩
    ∧ ∃ p : Bool,
        findAndPresent ⟨fun _ _ => 0, fun _ _ => 0⟩ [bewdCard] "blue eyes white dragon"
            none (some "ghost rare") true 85
          = .ok (.autoConfirmed (gVarBewd p)
              (.ok ⟨bewdCard, "Blue-Eyes White Dragon", "Ghost Rare", "None", "LOB-001"⟩)) := by
  have hb : FuzzBounded ⟨fun _ _ => 0, fun _ _ => 0⟩ := by
    intro a b
    norm_num
  exact ⟨hb, Exists.imp (fun p h => h.1)
    (C7_ghost_rare_auto_confirm ⟨fun _ _ => 0, fun _ _ => 0⟩ hb)⟩

/-! ## C6: a malformed catalog entry in the variant-expansion loop -/

/-- A well-formed catalog card with a single printed variant. -/
def c6Good : Card := ⟨some "Blue-Eyes White Dragon", some [⟨some "Ultra Rare", some "LOB-001"⟩]⟩

/-- A malformed catalog entry: the `name` key is missing. -/
def c6Bad : Card := ⟨none, some [⟨some "Super Rare", some "LOB-002"⟩]⟩

lemma firstPass_c6 (fz : FuzzLib) (hb : FuzzBounded fz) :
    firstPass fz "blue eyes white dragon" (getCardNameVariants "blue eyes white dragon")
        none [c6Good, c6Bad]
      = [⟨c6Good, 100, "Blue-Eyes White Dragon", "Ultra Rare"⟩] := by
  have hns := nameScore_bewd fz hb
  have hgood : c6Good.name = some "Blue-Eyes White Dragon" := rfl
  have hbad : c6Bad.name = none := rfl
  simp only [firstPass, List.foldl, firstPassStep, hgood, hbad]
  norm_num +decide [hns, findNamed, getCardRarityDisplay, csets, c6Good, truthy]

lemma firstPass_c6_good_only (fz : FuzzLib) (hb : FuzzBounded fz) :
    firstPass fz "blue eyes white dragon" (getCardNameVariants "blue eyes white dragon")
        none [c6Good]
      = [⟨c6Good, 100, "Blue-Eyes White Dragon", "Ultra Rare"⟩] := by
  have hns := nameScore_bewd fz hb
  have hgood : c6Good.name = some "Blue-Eyes White Dragon" := rfl
  simp only [firstPass, List.foldl, firstPassStep, hgood]
  norm_num +decide [hns, findNamed, getCardRarityDisplay, csets, c6Good, truthy]

lemma expandConfidence_c6 (fz : FuzzLib) (hb : FuzzBounded fz) :
    expandConfidence fz "blue eyes white dragon" "Blue-Eyes White Dragon"
        (getCardNameVariants "blue eyes white dragon") none
        ⟨some "Ultra Rare", some "LOB-001"⟩ = 85 := by
  have hns := nameScore_bewd fz hb
  have hblend : expandBlend fz "blue eyes white dragon" "Blue-Eyes White Dragon"
      (getCardNameVariants "blue eyes white dragon") none
      ⟨some "Ultra Rare", some "LOB-001"⟩ = 100 := by
    simp only [expandBlend, hns]
    norm_num [truthy]
  rw [expandConfidence, if_neg (by simp [truthy]), hblend]
  norm_num

/-- The single option presented for the well-formed one-card catalog. -/
def c6Var (p : Bool) : Variant :=
  ⟨c6Good, 85, "Blue-Eyes White Dragon", "Ultra Rare", "LOB-001",
    "Blue-Eyes White Dragon_Ultra Rare_LOB-001", p⟩

/-- C6: the spec requires a malformed catalog entry to be skipped with the
ranking pass continuing for all other entries and the same result produced.
The first scoring pass does skip it (its loop body is wrapped in
`try/except`), but the variant-expansion loop indexes `card['name']` with no
guard: a catalog whose second card lacks a name makes the whole
`find_and_present_card_options` pass abort with `KeyError`, while the same
catalog without the malformed entry presents the expected option list. -/
theorem C6_malformed_entry_aborts (fz : FuzzLib) (hb : FuzzBounded fz) :
    findAndPresent fz [c6Good, c6Bad] "blue eyes white dragon" none none false 85
      = .error "KeyError: name"
    ∧ ∃ p : Bool,
        findAndPresent fz [c6Good] "blue eyes white dragon" none none false 85
          = .ok (.presented [c6Var p]) := by
  have hgood : c6Good.name = some "Blue-Eyes White Dragon" := rfl
  have hbad : c6Bad.name = none := rfl
  have hconf := expandConfidence_c6 fz hb
  constructor
  · have hfp := firstPass_c6 fz hb
    have hcards : ∀ (ip : Bool) (st : List Variant × List Variant),
        expandCards fz "blue eyes white dragon"
          (getCardNameVariants "blue eyes white dragon") none
          "Blue-Eyes White Dragon" ip [c6Good, c6Bad] st = .error "KeyError: name" := by
      intro ip st
      simp only [expandCards, hgood, hbad]
    have hphase : expandPhase fz "blue eyes white dragon"
        (getCardNameVariants "blue eyes white dragon") none [c6Good, c6Bad]
        [⟨c6Good, 100, "Blue-Eyes White Dragon", "Ultra Rare"⟩] ([], [])
        = .error "KeyError: name" := by
      simp only [expandPhase]
      rw [hcards]
    simp only [findAndPresent, hfp]
    rw [hphase]
    norm_num
  · set p := (decide (90 ≤ fz.tsr (pyLower "blue eyes white dragon")
        (pyLower "Blue-Eyes White Dragon"))
      || subOf (pyLower "Blue-Eyes White Dragon") (pyLower "blue eyes white dragon")
      || subOf (pyLower "blue eyes white dragon") (pyLower "Blue-Eyes White Dragon")) with hp
    refine ⟨p, ?_⟩
    have hfp := firstPass_c6_good_only fz hb
    have hadd : addVariantsForCard fz "blue eyes white dragon"
        (getCardNameVariants "blue eyes white dragon") none
        "Blue-Eyes White Dragon" p c6Good ([], [])
        = if p then ([c6Var p], []) else ([], [c6Var p]) := by
      cases hpv : p <;>
        simp +decide [addVariantsForCard, c6Good, csets, mkVariantKey, List.foldl,
          c6Var, hconf, hpv]
    have hcards : expandCards fz "blue eyes white dragon"
        (getCardNameVariants "blue eyes white dragon") none
        "Blue-Eyes White Dragon" p [c6Good] ([], [])
        = .ok (if p then ([c6Var p], []) else ([], [c6Var p])) := by
      simp only [expandCards, hgood]
      rw [if_pos (by decide)]
      rw [hadd]
    have hphase : expandPhase fz "blue eyes white dragon"
        (getCardNameVariants "blue eyes white dragon") none [c6Good]
        [⟨c6Good, 100, "Blue-Eyes White Dragon", "Ultra Rare"⟩] ([], [])
        = .ok (if p then ([c6Var p], []) else ([], [c6Var p])) := by
      simp only [expandPhase, ← hp]
      rw [hcards]
    have hsort : pySortByConfDesc [c6Var p] = [c6Var p] := rfl
    have hdedup : ensureUniqueConfidenceScores [c6Var p] = [c6Var p] := by
      have h85 : adjustConfidence [] 85 = 85 := by
        simp [adjustConfidence, descendGo]
      have hcv : (c6Var p).confidence = 85 := rfl
      have hround : roundTenth (85 : ℚ) = 85 := roundTenth_grid ⟨850, by norm_num⟩
      simp only [ensureUniqueConfidenceScores, ensureUniqueGo, hcv, h85, hround]
      rfl
    cases hpv : p
    · rw [hpv] at hphase hsort hdedup
      simp only [findAndPresent, hfp]
      rw [hphase]
      simp only [if_false, Bool.false_eq_true, List.nil_append, List.append_nil]
      norm_num
      rw [hsort, hdedup]
      simp [List.take]
    · rw [hpv] at hphase hsort hdedup
      simp only [findAndPresent, hfp]
      rw [hphase]
      simp only [if_true, List.nil_append, List.append_nil]
      norm_num
      rw [hsort, hdedup]
      simp [List.take]

/-- Witness for `C6_malformed_entry_aborts` at the all-zero (bounded) score
functions: the pass on the catalog with the malformed entry errors out. -/
theorem C6_malformed_witness :
    FuzzBounded ⟨fun _ _ => 0, fun _ _ => 0⟩
    ∧ findAndPresent ⟨fun _ _ => 0, fun _ _ => 0⟩ [c6Good, c6Bad] "blue eyes white dragon"
        none none false 85 = .error "KeyError: name" := by
  have hb : FuzzBounded ⟨fun _ _ => 0, fun _ _ => 0⟩ := by
    intro a b
    norm_num
  exact ⟨hb, (C6_malformed_entry_aborts ⟨fun _ _ => 0, fun _ _ => 0⟩ hb).1⟩

/-! ## C1 and C10: the pending-selection invariant and the cancel vocabulary -/

/-- C1: while a PendingSelection exists, every utterance is routed to the
ordinal/cancel parser and never starts a new query; the pending state is
cleared exactly by a valid in-range ordinal commit or a cancel-vocabulary
match (the out-of-band UI dismissal being the separate `cancel_selection`
path), and on an out-of-range ordinal or unparseable text the state — pending
flag, option list and hints — is unchanged. -/
theorem C1_pending_routing (fz : FuzzLib) (set_cards : List Card)
    (aare are ace : Bool) (thr : ℤ) (st : VoiceState) (text : String)
    (hp : st.pending_voice_confirmation = true) :
    (∀ cn av ra res,
        (processVoiceInput fz set_cards aare are ace thr st text).2
          ≠ .startedQuery cn av ra res)
    ∧ ((processVoiceInput fz set_cards aare are ace thr st text).1.pending_voice_confirmation
          = false →
        (∃ out, (processVoiceInput fz set_cards aare are ace thr st text).2 = .committed out)
        ∨ (processVoiceInput fz set_cards aare are ace thr st text).2 = .cancelled)
    ∧ (∀ k, (processVoiceInput fz set_cards aare are ace thr st text).2 = .invalidSelection k →
        (processVoiceInput fz set_cards aare are ace thr st text).1 = st)
    ∧ (∀ k, (processVoiceInput fz set_cards aare are ace thr st text).2 = .unrecognized k →
        (processVoiceInput fz set_cards aare are ace thr st text).1 = st)
    ∧ ((∃ out, (processVoiceInput fz set_cards aare are ace thr st text).2 = .committed out)
        ∨ (processVoiceInput fz set_cards aare are ace thr st text).2 = .cancelled →
        (processVoiceInput fz set_cards aare are ace thr st text).1 = clearedState) := by
  have hroute : processVoiceInput fz set_cards aare are ace thr st text
      = handleVoiceSelection st (pyStrip (pyLower text)) := by
    simp only [processVoiceInput, hp, if_true]
  rw [hroute]
  set t := pyStrip (pyLower text) with ht
  unfold handleVoiceSelection
  cases hord : parseOrdinal t with
  | some n =>
    dsimp only
    by_cases hin : 1 ≤ n ∧ n ≤ st.pending_card_options.length
    · rw [if_pos hin]
      cases hget : st.pending_card_options.get? (n - 1) with
      | some sel =>
        refine ⟨by intro cn av ra res h; exact VoiceAction.noConfusion h, ?_, ?_, ?_, ?_⟩
        · intro _
          exact Or.inl ⟨_, rfl⟩
        · intro k h
          exact absurd h (by intro h; exact VoiceAction.noConfusion h)
        · intro k h
          exact absurd h (by intro h; exact VoiceAction.noConfusion h)
        · intro _
          rfl
      | none =>
        refine ⟨by intro cn av ra res h; exact VoiceAction.noConfusion h, ?_, ?_, ?_, ?_⟩
        · intro h
          rw [hp] at h
          exact absurd h (by simp)
        · intro k _
          rfl
        · intro k h
          exact absurd h (by intro h; exact VoiceAction.noConfusion h)
        · rintro (⟨out, h⟩ | h) <;> exact VoiceAction.noConfusion h
    · rw [if_neg hin]
      refine ⟨by intro cn av ra res h; exact VoiceAction.noConfusion h, ?_, ?_, ?_, ?_⟩
      · intro h
        rw [hp] at h
        exact absurd h (by simp)
      · intro k _
        rfl
      · intro k h
        exact absurd h (by intro h; exact VoiceAction.noConfusion h)
      · rintro (⟨out, h⟩ | h) <;> exact VoiceAction.noConfusion h
  | none =>
    dsimp only
    by_cases hc : cancelMatch t = true
    · rw [if_pos hc]
      refine ⟨by intro cn av ra res h; exact VoiceAction.noConfusion h, ?_, ?_, ?_, ?_⟩
      · intro _
        exact Or.inr rfl
      · intro k h
        exact absurd h (by intro h; exact VoiceAction.noConfusion h)
      · intro k h
        exact absurd h (by intro h; exact VoiceAction.noConfusion h)
      · intro _
        rfl
    · rw [if_neg hc]
      refine ⟨by intro cn av ra res h; exact VoiceAction.noConfusion h, ?_, ?_, ?_, ?_⟩
      · intro h
        rw [hp] at h
        exact absurd h (by simp)
      · intro k h
        exact absurd h (by intro h; exact VoiceAction.noConfusion h)
      · intro k _
        rfl
      · rintro (⟨out, h⟩ | h) <;> exact VoiceAction.noConfusion h

/-- C10: in AwaitingAnswer the cancel vocabulary is consulted only after all
five ordinal patterns fail, and it is an unanchored substring search: any
utterance with no ordinal that contains `reject`, `cancel`, `no`, `none` or
`skip` anywhere — including words like `knockout` and `unknown` that merely
contain `no` — clears the pending selection with no commit. -/
theorem C10_cancel_vocabulary (st : VoiceState) (text : String) :
    (parseOrdinal text = none → cancelMatch text = true →
        handleVoiceSelection st text = (clearedState, .cancelled))
    ∧ (∀ n, parseOrdinal text = some n →
        (∃ out, (handleVoiceSelection st text).2 = .committed out)
        ∨ (handleVoiceSelection st text).2 = .invalidSelection st.pending_card_options.length)
    ∧ subOf "no" "knockout" = true ∧ subOf "no" "unknown" = true
    ∧ cancelMatch "knockout" = true ∧ cancelMatch "unknown" = true := by
  refine ⟨?_, ?_, by decide, by decide, by decide, by decide⟩
  · intro h1 h2
    unfold handleVoiceSelection
    rw [h1]
    dsimp only
    rw [if_pos h2]
  · intro n h
    unfold handleVoiceSelection
    rw [h]
    dsimp only
    by_cases hin : 1 ≤ n ∧ n ≤ st.pending_card_options.length
    · rw [if_pos hin]
      cases hget : st.pending_card_options.get? (n - 1) with
      | some sel => exact Or.inl ⟨_, rfl⟩
      | none => exact Or.inr rfl
    · rw [if_neg hin]
      exact Or.inr rfl

/-- Witness for `C10_cancel_vocabulary`: a pending selection with one option
is cleared with no commit by the utterance `knockout` (which contains `no`). -/
theorem C10_cancel_vocabulary_witness :
    parseOrdinal "knockout" = none
    ∧ cancelMatch "knockout" = true
    ∧ handleVoiceSelection
        ⟨true, [⟨⟨none, none⟩, 50, "N", "R", "S", "K", false⟩], emptyPendingData⟩
        "knockout"
      = (clearedState, .cancelled) := by
  refine ⟨rfl, by decide, ?_⟩
  exact (C10_cancel_vocabulary
    ⟨true, [⟨⟨none, none⟩, 50, "N", "R", "S", "K", false⟩], emptyPendingData⟩
    "knockout").1 rfl (by decide)

/-- Witness for `C1_pending_routing`: with a pending selection and utterance
`7` (out of range for a single option), no new query is started and the state
is untouched. -/
theorem C1_pending_routing_witness :
    (⟨true, [⟨⟨none, none⟩, 50, "N", "R", "S", "K", false⟩], emptyPendingData⟩
        : VoiceState).pending_voice_confirmation = true
    ∧ (∀ cn av ra res,
        (processVoiceInput ⟨fun _ _ => 0, fun _ _ => 0⟩ [] true true true 85
            ⟨true, [⟨⟨none, none⟩, 50, "N", "R", "S", "K", false⟩], emptyPendingData⟩
            "7").2
          ≠ .startedQuery cn av ra res) := by
  exact ⟨rfl, (C1_pending_routing ⟨fun _ _ => 0, fun _ _ => 0⟩ [] true true true 85
    ⟨true, [⟨⟨none, none⟩, 50, "N", "R", "S", "K", false⟩], emptyPendingData⟩
    "7" rfl).1⟩

/-- A card printed in two sets with different set codes, used to refute C2. -/
def c2Card : Card :=
  ⟨some "BEWD", some [⟨some "Ultra Rare", some "SET-A"⟩, ⟨some "Ghost Rare", some "SET-B"⟩]⟩

/-- C2 counterexample.  Selecting option 2 (the Ghost Rare printing with set
code `SET-B`) commits an outcome whose price-API set code is `SET-A` — the
card's FIRST listed variant — because `add_card_to_session` builds the payload
from `card_data['card_sets'][0]['set_code']`, not from the chosen option. -/
theorem C2_set_code_counterexample :
    (handleVoiceSelection
        ⟨true,
          [⟨c2Card, 85, "BEWD", "Ultra Rare", "SET-A", "k1", false⟩,
            ⟨c2Card, 849/10, "BEWD", "Ghost Rare", "SET-B", "k2", false⟩],
          ⟨some "bewd", none, none⟩⟩
        "2").2
      = .committed (.ok ⟨c2Card, "BEWD", "Ghost Rare", "None", "SET-A"⟩)
    ∧ (⟨c2Card, 849/10, "BEWD", "Ghost Rare", "SET-B", "k2", false⟩ : Variant).set_code
        = "SET-B"
    ∧ ("SET-A" : String) ≠ "SET-B" := by
  refine ⟨rfl, rfl, by decide⟩

/-- C2 (amended): every successful resolution (auto-confirm, voice ordinal,
or UI click) commits through `add_card_to_session` with the chosen option's
card and the chosen option's own rarity label and the pending art hint — but
the set code placed in the committed outcome's price payload is always the
set code of the card's FIRST listed variant, not the chosen option's. -/
theorem C2_commit_shape :
    (∀ (card : Card) (art rarity : Option String) (o : MatchOutcome),
        addCardToSession card art rarity = .ok o →
          o.card_data = card
          ∧ o.card_rarity
              = (if truthy rarity then rarity.getD "" else getCardRarityDisplay card rarity)
          ∧ o.price_card_number = ((csets card).headD ⟨none, none⟩).set_code.getD "")
    ∧ (∀ (st : VoiceState) (text : String) (n : ℕ) (sel : Variant),
        parseOrdinal text = some n → 1 ≤ n ∧ n ≤ st.pending_card_options.length →
        st.pending_card_options.get? (n - 1) = some sel →
        handleVoiceSelection st text
          = (clearedState,
              .committed (addCardToSession sel.card_data
                st.pending_voice_data.art_variant (some sel.rarity))))
    ∧ (∀ (st : VoiceState) (art : Option String) (k : ℕ) (sel : Variant),
        st.pending_card_options.get? k = some sel →
        uiSelectOption st art k
          = (clearedState, some (addCardToSession sel.card_data art (some sel.rarity))))
    ∧ (∀ (fz : FuzzLib) (set_cards : List Card) (cn : String) (av ra : Option String)
          (en : Bool) (thr : ℤ) (best : Variant) (out : Except String MatchOutcome),
        findAndPresent fz set_cards cn av ra en thr = .ok (.autoConfirmed best out) →
        out = addCardToSession best.card_data av (some best.rarity)) := by
  refine ⟨?_, ?_, ?_, ?_⟩
  · intro card art rarity o h
    unfold addCardToSession at h
    cases hcs : card.card_sets with
    | none =>
      rw [hcs] at h
      injection h with h
      rw [← h]
      exact ⟨rfl, rfl, by simp [csets, hcs]⟩
    | some l =>
      cases l with
      | nil =>
        rw [hcs] at h
        exact absurd h (by simp)
      | cons cs0 rest =>
        rw [hcs] at h
        injection h with h
        rw [← h]
        exact ⟨rfl, rfl, by simp [csets, hcs]⟩
  · intro st text n sel hord hin hget
    unfold handleVoiceSelection
    rw [hord]
    dsimp only
    rw [if_pos hin, hget]
  · intro st art k sel hget
    unfold uiSelectOption
    rw [hget]
  · intro fz set_cards cn av ra en thr best out h
    unfold findAndPresent at h
    dsimp only at h
    repeat' split at h
    all_goals try simp_all
    all_goals
      obtain ⟨h1, h2⟩ := h
      rw [← h2, h1]

/-- Witness for `C2_commit_shape` at a concrete committed outcome: the rarity
is the chosen one, the payload set code is the first listed variant's. -/
theorem C2_commit_shape_witness :
    addCardToSession c2Card none (some "Ghost Rare")
      = .ok ⟨c2Card, "BEWD", "Ghost Rare", "None", "SET-A"⟩
    ∧ (⟨c2Card, "BEWD", "Ghost Rare", "None", "SET-A"⟩ : MatchOutcome).card_rarity
        = (if truthy (some "Ghost Rare") then (some "Ghost Rare").getD ""
            else getCardRarityDisplay c2Card (some "Ghost Rare"))
    ∧ (⟨c2Card, "BEWD", "Ghost Rare", "None", "SET-A"⟩ : MatchOutcome).price_card_number
        = ((csets c2Card).headD ⟨none, none⟩).set_code.getD "" := by
  have h := (C2_commit_shape).1 c2Card none (some "Ghost Rare")
    ⟨c2Card, "BEWD", "Ghost Rare", "None", "SET-A"⟩ rfl
  exact ⟨rfl, h.2.1, h.2.2⟩
